import Mathlib

/-!
# Verification of the circuit-forge quantum adder / multiplier builders

This file gives a shallow embedding of the circuit-construction code in
`src/circuit_forge/adder.py` and `src/circuit_forge/multiplier.py`.

A circuit is an ordered list of gates.  On classical basis states the three
gate kinds used by the code (X, CX = controlled flip, CCX = doubly-controlled
flip) act as reversible boolean updates on a state `Nat → Bool` assigning a
classical bit to every qubit index; measurements do not change a classical
basis state.  Every builder function of the source is translated into a
function producing the exact gate list the Python code appends, and the
theorems below are about running those gate lists on basis states.
-/

set_option maxRecDepth 100000

/-- One gate operation, as appended by the builders.  `measure q c` records a
measurement of qubit `q` into classical bit `c`. -/
inductive Gate where
  | x (t : Nat)
  | cx (c t : Nat)
  | ccx (c1 c2 t : Nat)
  | measure (q c : Nat)
deriving DecidableEq, Repr

/-- Point update of a basis state. -/
def upd (s : Nat → Bool) (t : Nat) (v : Bool) : Nat → Bool :=
  fun j => if j = t then v else s j

/-- Action of a single gate on a classical basis state. -/
def applyGate (g : Gate) (s : Nat → Bool) : Nat → Bool :=
  match g with
  | .x t => upd s t (!(s t))
  | .cx c t => upd s t ((s t).xor (s c))
  | .ccx c1 c2 t => upd s t ((s t).xor ((s c1) && (s c2)))
  | .measure _ _ => s

/-- Run a gate list (in order) on a basis state. -/
def run (gs : List Gate) (s : Nat → Bool) : Nat → Bool :=
  gs.foldl (fun s g => applyGate g s) s

@[simp] theorem run_nil (s : Nat → Bool) : run [] s = s := rfl

@[simp] theorem run_cons (g : Gate) (gs : List Gate) (s : Nat → Bool) :
    run (g :: gs) s = run gs (applyGate g s) := rfl

theorem run_append (l1 l2 : List Gate) (s : Nat → Bool) :
    run (l1 ++ l2) s = run l2 (run l1 s) :=
  List.foldl_append _ _ _ _

/-- Relabel the qubit indices of a gate. -/
def mapGate (f : Nat → Nat) : Gate → Gate
  | .x t => .x (f t)
  | .cx c t => .cx (f c) (f t)
  | .ccx c1 c2 t => .ccx (f c1) (f c2) (f t)
  | .measure q c => .measure (f q) c

theorem applyGate_map (f : Nat → Nat) (hf : Function.Injective f) (g : Gate)
    (s : Nat → Bool) (i : Nat) :
    applyGate (mapGate f g) s (f i) = applyGate g (fun j => s (f j)) i := by
  cases g <;> simp [mapGate, applyGate, upd, hf.eq_iff]

theorem run_map (f : Nat → Nat) (hf : Function.Injective f) (gs : List Gate) :
    ∀ (s : Nat → Bool) (i : Nat),
      run (gs.map (mapGate f)) s (f i) = run gs (fun j => s (f j)) i := by
  induction gs with
  | nil => intro s i; rfl
  | cons g rest ih =>
      intro s i
      have hg : (fun j => applyGate (mapGate f g) s (f j))
          = applyGate g (fun j => s (f j)) := by
        funext j; exact applyGate_map f hf g s j
      simp only [List.map_cons, run_cons]
      rw [ih (applyGate (mapGate f g) s) i, hg]

/-- The qubit indices a gate writes to. -/
def gateTargets : Gate → List Nat
  | .x t => [t]
  | .cx _ t => [t]
  | .ccx _ _ t => [t]
  | .measure _ _ => []

theorem applyGate_frame (g : Gate) (s : Nat → Bool) (j : Nat)
    (hj : ∀ t ∈ gateTargets g, t ≠ j) : applyGate g s j = s j := by
  cases g with
  | x t => simp only [gateTargets, List.mem_singleton, forall_eq] at hj
           simp [applyGate, upd, Ne.symm hj]
  | cx c t => simp only [gateTargets, List.mem_singleton, forall_eq] at hj
              simp [applyGate, upd, Ne.symm hj]
  | ccx a b t => simp only [gateTargets, List.mem_singleton, forall_eq] at hj
                 simp [applyGate, upd, Ne.symm hj]
  | measure q c => rfl

theorem run_frame (gs : List Gate) :
    ∀ (s : Nat → Bool) (j : Nat),
      (∀ g ∈ gs, ∀ t ∈ gateTargets g, t ≠ j) → run gs s j = s j := by
  induction gs with
  | nil => intro s j _; rfl
  | cons g rest ih =>
      intro s j h
      simp only [run_cons]
      rw [ih (applyGate g s) j (fun g' hg' => h g' (List.mem_cons_of_mem _ hg'))]
      exact applyGate_frame g s j (h g (List.mem_cons_self _ _))

/-! ## Embedding of `src/circuit_forge/adder.py` -/

/-- Python list slicing `l[0::3]` (every third element). -/
def everyThird : List Nat → List Nat
  | [] => []
  | [u] => [u]
  | [u, _] => [u]
  | u :: _ :: _ :: rest => u :: everyThird rest

/-- `apply_majority_gate(qc, a, b, c)`: `cx(c,b); cx(c,a); ccx(a,b,c)`. -/
def apply_majority_gate (a b c : Nat) : List Gate :=
  [.cx c b, .cx c a, .ccx a b c]

/-- `undo_majority_gate(qc, a, b, c)`: `ccx(a,b,c); cx(c,a); cx(a,b)`. -/
def undo_majority_gate (a b c : Nat) : List Gate :=
  [.ccx a b c, .cx c a, .cx a b]

/-- `add_four_bits(qc, a_qubits, b_qubits, carry_in, carry_out)`. -/
def add_four_bits (a_qubits b_qubits : List Nat) (carry_in carry_out : Nat) :
    List Gate :=
  apply_majority_gate carry_in (b_qubits.getD 0 0) (a_qubits.getD 0 0)
  ++ apply_majority_gate (a_qubits.getD 0 0) (b_qubits.getD 1 0) (a_qubits.getD 1 0)
  ++ apply_majority_gate (a_qubits.getD 1 0) (b_qubits.getD 2 0) (a_qubits.getD 2 0)
  ++ apply_majority_gate (a_qubits.getD 2 0) (b_qubits.getD 3 0) (a_qubits.getD 3 0)
  ++ [.cx (a_qubits.getD 3 0) carry_out]
  ++ undo_majority_gate (a_qubits.getD 2 0) (b_qubits.getD 3 0) (a_qubits.getD 3 0)
  ++ undo_majority_gate (a_qubits.getD 1 0) (b_qubits.getD 2 0) (a_qubits.getD 2 0)
  ++ undo_majority_gate (a_qubits.getD 0 0) (b_qubits.getD 1 0) (a_qubits.getD 1 0)
  ++ undo_majority_gate carry_in (b_qubits.getD 0 0) (a_qubits.getD 0 0)

/-- Python `str.ljust(w, '0')`: pad on the RIGHT with `'0'` up to width `w`. -/
def ljust (s : List Char) (w : Nat) (c : Char) : List Char :=
  s ++ List.replicate (w - s.length) c

/-- Python slicing `s[-k:]`: the last `k` characters. -/
def takeLast (s : List Char) (k : Nat) : List Char :=
  s.drop (s.length - k)

/-- `initialize_quantum_state(qc, qubit_count, a_pattern, b_pattern,
initial_carry)`: normalises both patterns with `.ljust(qubit_count, "0")[-qubit_count:]`,
then emits an X gate on qubit `i` for each `'1'` of the a-pattern, on qubit
`qubit_count + i` for each `'1'` of the b-pattern, and on qubit
`2*qubit_count` when `initial_carry == 1`. -/
def initialize_quantum_state (qubit_count : Nat)
    (a_pattern b_pattern : List Char) (initial_carry : Nat) : List Gate :=
  let aP := takeLast (ljust a_pattern qubit_count '0') qubit_count
  let bP := takeLast (ljust b_pattern qubit_count '0') qubit_count
  ((List.range qubit_count).filterMap fun i =>
    if aP.getD i ' ' = '1' then some (Gate.x i) else none)
  ++ ((List.range qubit_count).filterMap fun i =>
    if bP.getD i ' ' = '1' then some (Gate.x (qubit_count + i)) else none)
  ++ (if initial_carry = 1 then [Gate.x (2 * qubit_count)] else [])

/-- `validate_qubit_count(qubit_count)`: `qubit_count % 4 == 0 and qubit_count > 0`
(on Python ints, which may be negative). -/
def validate_qubit_count (qubit_count : Int) : Bool :=
  qubit_count % 4 = 0 && qubit_count > 0

/-- `create_quantum_circuit(qubit_count)`: returns
`(QuantumCircuit(n_qubits, n_qubits), n_qubits)` with
`n_qubits = qubit_count * 2 + 2 + int(qubit_count / 4) - 1`; the circuit is
modelled by its pair of register sizes (quantum, classical).  For
`qubit_count` a multiple of 4, Python `int(qubit_count / 4)` equals the
natural-number division `qubit_count / 4` used here. -/
def create_quantum_circuit (qubit_count : Nat) : (Nat × Nat) × Nat :=
  let n_qubits := qubit_count * 2 + 2 + qubit_count / 4 - 1
  ((n_qubits, n_qubits), n_qubits)

/-- The total-qubit count computed by `create_quantum_circuit`. -/
def n_qubits (qubit_count : Nat) : Nat :=
  qubit_count * 2 + 2 + qubit_count / 4 - 1

/-- Gates appended by `qc.measure_all()` on an `n`-qubit circuit: every qubit
is measured (into a fresh classical register), in ascending index order. -/
def measureAll (n : Nat) : List Gate :=
  (List.range n).map fun q => Gate.measure q q

/-- The circuit built by the adder's `__main__` block for a (valid) bit width
`qubit_count`: initialization with the fixed patterns `"1110"`, `"0001"` and
initial carry 1, then one `add_four_bits` block per `i in range(0, qubit_count, 4)`
with `carry_in = qubit_count*2 + int(i/4)` and `carry_out = qubit_count*2 + int(i/4) + 1`,
then `measure_all()`. -/
def adder_program (qubit_count : Nat) : List Gate :=
  initialize_quantum_state qubit_count ['1', '1', '1', '0'] ['0', '0', '0', '1'] 1
  ++ ((List.range ((qubit_count + 3) / 4)).flatMap fun t =>
      let i := 4 * t
      add_four_bits [i, i + 1, i + 2, i + 3]
        [i + qubit_count, i + qubit_count + 1, i + qubit_count + 2, i + qubit_count + 3]
        (qubit_count * 2 + i / 4) (qubit_count * 2 + i / 4 + 1))
  ++ measureAll (n_qubits qubit_count)

/-! ## Embedding of `src/circuit_forge/multiplier.py` -/

/-- `carry(qc, c0, a, b, c1)`: `ccx(a,b,c1); cx(a,b); ccx(c0,b,c1)`. -/
def carry (c0 a b c1 : Nat) : List Gate :=
  [.ccx a b c1, .cx a b, .ccx c0 b c1]

/-- `uncarry(qc, c0, a, b, c1)`: `ccx(c0,b,c1); cx(a,b); ccx(a,b,c1)`. -/
def uncarry (c0 a b c1 : Nat) : List Gate :=
  [.ccx c0 b c1, .cx a b, .ccx a b c1]

/-- `carry_sum(qc, c0, a, b)`: `cx(a,b); cx(c0,b)`. -/
def carry_sum (c0 a b : Nat) : List Gate :=
  [.cx a b, .cx c0 b]

/-- `adder(qc, qubits)`: ripple-carry adder over `n = len(qubits)//3`
interleaved triplets `c = qubits[0::3]`, `a = qubits[1::3]`, `b = qubits[2::3]`:
forward `carry` chain, `carry_sum` on the top triplet, then descending
`uncarry`/`carry_sum` pairs. -/
def adder (qubits : List Nat) : List Gate :=
  let n := qubits.length / 3
  let c := everyThird qubits
  let a := everyThird (qubits.drop 1)
  let b := everyThird (qubits.drop 2)
  ((List.range (n - 1)).flatMap fun i =>
    carry (c.getD i 0) (a.getD i 0) (b.getD i 0) (c.getD (i + 1) 0))
  ++ carry_sum (c.getD (n - 1) 0) (a.getD (n - 1) 0) (b.getD (n - 1) 0)
  ++ ((List.range (n - 1)).reverse.flatMap fun i =>
    uncarry (c.getD i 0) (a.getD i 0) (b.getD i 0) (c.getD (i + 1) 0)
    ++ carry_sum (c.getD i 0) (a.getD i 0) (b.getD i 0))

/-- `multiplier(qc, qubits)`: shift-and-add over `n = len(qubits)//5` with
`a = qubits[1:n*3:3]`, `y = qubits[n*3:n*4]`, `x = qubits[n*4:]`.  For each
`i, x_i in enumerate(x)`: a `ccx(x_i, y_j, a_(i+j))` pass over
`zip(a[i:], y[:n-i])`, then `adder` on `qubits[:3*n]`, then the same
`ccx` pass again. -/
def multiplier (qubits : List Nat) : List Gate :=
  let n := qubits.length / 5
  let a := everyThird ((qubits.take (n * 3)).drop 1)
  let y := (qubits.drop (n * 3)).take (n * 4 - n * 3)
  let x := qubits.drop (n * 4)
  (List.range x.length).flatMap fun i =>
    ((a.drop i).zip (y.take (n - i))).flatMap
      (fun p => [Gate.ccx (x.getD i 0) p.2 p.1])
    ++ adder (qubits.take (3 * n))
    ++ ((a.drop i).zip (y.take (n - i))).flatMap
      (fun p => [Gate.ccx (x.getD i 0) p.2 p.1])

/-- `init_bits(qc, x_bin, *qubits)`: zips the bit string with the REVERSED
qubit list (stopping at the shorter), flipping the paired qubit for each `'1'`. -/
def init_bits (x_bin : List Char) (qubits : List Nat) : List Gate :=
  (x_bin.zip qubits.reverse).filterMap fun p =>
    if p.1 = '1' then some (Gate.x p.2) else none

/-- `validate_bit_count(n)`: `n > 0` (Python int). -/
def validate_bit_count (n : Int) : Bool :=
  n > 0

/-! ## List helpers -/

theorem everyThird_getD (l : List Nat) :
    ∀ (i : Nat) (d : Nat), (everyThird l).getD i d = l.getD (3 * i) d := by
  induction l using everyThird.induct with
  | case1 => intro i d; rfl
  | case2 u =>
      intro i d
      cases i with
      | zero => rfl
      | succ i =>
          rw [List.getD_eq_default _ _ (show ([u] : List Nat).length ≤ 3 * (i + 1) by simp; omega)]
          rw [List.getD_eq_default _ _ (show (everyThird [u]).length ≤ i + 1 by simp [everyThird])]
  | case3 u v =>
      intro i d
      cases i with
      | zero => rfl
      | succ i =>
          rw [List.getD_eq_default _ _ (show ([u, v] : List Nat).length ≤ 3 * (i + 1) by simp; omega)]
          rw [List.getD_eq_default _ _ (show (everyThird [u, v]).length ≤ i + 1 by simp [everyThird])]
  | case4 u v w rest ih =>
      intro i d
      cases i with
      | zero => rfl
      | succ i =>
          have h3 : 3 * (i + 1) = 3 * i + 1 + 1 + 1 := by ring
          simp only [everyThird, h3, List.getD_cons_succ]
          exact ih i d

theorem everyThird_length (l : List Nat) :
    (everyThird l).length = (l.length + 2) / 3 := by
  induction l using everyThird.induct with
  | case1 => rfl
  | case2 u => simp [everyThird]
  | case3 u v => simp [everyThird]
  | case4 u v w rest ih =>
      simp only [everyThird, List.length_cons, ih]
      omega

theorem everyThird_sublist (l : List Nat) : ∀ q ∈ everyThird l, q ∈ l := by
  induction l using everyThird.induct with
  | case1 => intro q hq; exact absurd hq (List.not_mem_nil q)
  | case2 u => intro q hq; exact hq
  | case3 u v =>
      intro q hq
      simp only [everyThird, List.mem_singleton] at hq
      simp [hq]
  | case4 u v w rest ih =>
      intro q hq
      simp only [everyThird, List.mem_cons] at hq
      rcases hq with h | h
      · simp [h]
      · have := ih q h
        simp only [List.mem_cons]
        tauto

theorem getD_drop (l : List Nat) :
    ∀ (k i d : Nat), (l.drop k).getD i d = l.getD (k + i) d := by
  induction l with
  | nil => intro k i d; simp [List.getD]
  | cons u rest ih =>
      intro k i d
      cases k with
      | zero => simp
      | succ k =>
          have : u :: rest = [u] ++ rest := rfl
          simp only [List.drop_succ_cons, ih k i d]
          have hk : k + 1 + i = (k + i) + 1 := by omega
          rw [hk]
          rfl

theorem flatMap_congr {α β : Type} (l : List α) (f g : α → List β)
    (h : ∀ x ∈ l, f x = g x) : l.flatMap f = l.flatMap g := by
  induction l with
  | nil => rfl
  | cons u rest ih =>
      simp only [List.flatMap_cons]
      rw [h u (List.mem_cons_self _ _), ih (fun x hx => h x (List.mem_cons_of_mem _ hx))]

theorem getD_range (n i d : Nat) (hi : i < n) : (List.range n).getD i d = i := by
  rw [List.getD_eq_getElem _ _ (by simpa using hi)]
  simp

/-! ## Little-endian register values -/

/-- Little-endian value of the register whose bit `i` sits on qubit `q i`:
`regVal s q m = Σ_(i<m) (s (q i)) * 2^i`. -/
def regVal (s : Nat → Bool) (q : Nat → Nat) : Nat → Nat
  | 0 => 0
  | m + 1 => (s (q 0)).toNat + 2 * regVal s (fun i => q (i + 1)) m

theorem regVal_congr (s s' : Nat → Bool) (q q' : Nat → Nat) :
    ∀ (m : Nat), (∀ i, i < m → s (q i) = s' (q' i)) →
      regVal s q m = regVal s' q' m := by
  intro m
  induction m generalizing q q' with
  | zero => intro _; rfl
  | succ m ih =>
      intro h
      simp only [regVal]
      rw [h 0 (by omega), ih (fun i => q (i + 1)) (fun i => q' (i + 1))
        (fun i hi => h (i + 1) (by omega))]

theorem regVal_zero_of_false (s : Nat → Bool) (q : Nat → Nat) :
    ∀ (m : Nat), (∀ i, i < m → s (q i) = false) → regVal s q m = 0 := by
  intro m
  induction m generalizing q with
  | zero => intro _; rfl
  | succ m ih =>
      intro h
      simp only [regVal]
      rw [h 0 (by omega), ih (fun i => q (i + 1)) (fun i hi => h (i + 1) (by omega))]
      rfl

theorem regVal_lt (s : Nat → Bool) (q : Nat → Nat) :
    ∀ (m : Nat), regVal s q m < 2 ^ m := by
  intro m
  induction m generalizing q with
  | zero => simp [regVal]
  | succ m ih =>
      have h := ih (fun i => q (i + 1))
      have hb : (s (q 0)).toNat ≤ 1 := Bool.toNat_le _
      simp only [regVal, pow_succ]
      omega

theorem regVal_split (s : Nat → Bool) :
    ∀ (u : Nat) (q : Nat → Nat) (v : Nat),
      regVal s q (u + v) = regVal s q u + 2 ^ u * regVal s (fun i => q (i + u)) v := by
  intro u
  induction u with
  | zero =>
      intro q v
      simp [regVal]
  | succ u ih =>
      intro q v
      have hsum : u + 1 + v = (u + v) + 1 := by omega
      rw [hsum]
      simp only [regVal]
      rw [ih (fun i => q (i + 1)) v]
      have hq : (fun i => q (i + u + 1)) = (fun i => q (i + (u + 1))) := by
        funext i; rfl
      rw [hq]
      ring

theorem regVal_testBit (s : Nat → Bool) (q : Nat → Nat) :
    ∀ (m i : Nat), i < m → (regVal s q m).testBit i = s (q i) := by
  intro m
  induction m generalizing q with
  | zero => intro i hi; omega
  | succ m ih =>
      intro i hi
      cases i with
      | zero =>
          simp only [regVal, Nat.testBit_zero]
          cases s (q 0) <;> simp [Nat.add_mul_mod_self_left]
      | succ i =>
          have := ih (fun j => q (j + 1)) i (by omega)
          rw [Nat.testBit_succ]
          have hdiv : ((s (q 0)).toNat + 2 * regVal s (fun j => q (j + 1)) m) / 2
              = regVal s (fun j => q (j + 1)) m := by
            have : (s (q 0)).toNat ≤ 1 := Bool.toNat_le _
            omega
          simp only [regVal]
          rw [hdiv, this]

/-- If the bits of a register agree with the low bits of `N`, the register
holds `N mod 2^m`. -/
theorem regVal_of_testBit (s : Nat → Bool) (q : Nat → Nat) :
    ∀ (m : Nat) (N : Nat), (∀ i, i < m → s (q i) = N.testBit i) →
      regVal s q m = N % 2 ^ m := by
  intro m
  induction m generalizing q with
  | zero => intro N _; simp [regVal, Nat.mod_one]
  | succ m ih =>
      intro N h
      have h0 : s (q 0) = N.testBit 0 := h 0 (by omega)
      have hrest : regVal s (fun i => q (i + 1)) m = (N / 2) % 2 ^ m := by
        refine ih (fun i => q (i + 1)) (N / 2) (fun i hi => ?_)
        rw [← Nat.testBit_succ]
        exact h (i + 1) (by omega)
      simp only [regVal, h0, hrest]
      have hbit : (N.testBit 0).toNat = N % 2 := by
        rw [Nat.testBit_zero]
        rcases Nat.mod_two_eq_zero_or_one N with h2 | h2 <;> simp [h2]
      rw [hbit]
      have hN : N % 2 ^ (m + 1) = N % 2 + 2 * (N / 2 % 2 ^ m) := by
        conv_lhs => rw [← Nat.div_add_mod N 2]
        conv_lhs => rw [← Nat.div_add_mod (N / 2) (2 ^ m)]
        have h1 : 2 * (2 ^ m * (N / 2 / 2 ^ m) + N / 2 % 2 ^ m) + N % 2
            = (N % 2 + 2 * (N / 2 % 2 ^ m)) + 2 ^ (m + 1) * (N / 2 / 2 ^ m) := by
          rw [pow_succ]; ring
        rw [h1, Nat.add_mul_mod_self_left]
        have hlt : N % 2 + 2 * (N / 2 % 2 ^ m) < 2 ^ (m + 1) := by
          have ha : N % 2 < 2 := Nat.mod_lt _ (by omega)
          have hb : N / 2 % 2 ^ m < 2 ^ m := Nat.mod_lt _ (Nat.pos_pow_of_pos _ (by omega))
          rw [pow_succ]
          omega
        exact Nat.mod_eq_of_lt hlt
      omega

/-! ## Pointwise behaviour of the primitive gate sequences

The value lemmas are stated at canonical indices `0,1,2,3` and transported to
arbitrary distinct qubits through `run_map`; the frame lemmas are stated for
arbitrary indices directly. -/

theorem run_carry_2 (t : Nat → Bool) :
    run (carry 0 1 2 3) t 2 = (t 2).xor (t 1) := by
  cases h0 : t 0 <;> cases h1 : t 1 <;> cases h2 : t 2 <;> cases h3 : t 3 <;>
    simp [carry, run, applyGate, upd, h0, h1, h2, h3]

theorem run_carry_3 (t : Nat → Bool) :
    run (carry 0 1 2 3) t 3
      = ((t 3).xor ((t 1) && (t 2))).xor ((t 0) && ((t 2).xor (t 1))) := by
  cases h0 : t 0 <;> cases h1 : t 1 <;> cases h2 : t 2 <;> cases h3 : t 3 <;>
    simp [carry, run, applyGate, upd, h0, h1, h2, h3]

theorem run_carry_frame (q0 q1 q2 q3 : Nat) (t : Nat → Bool) (j : Nat)
    (hj2 : j ≠ q2) (hj3 : j ≠ q3) : run (carry q0 q1 q2 q3) t j = t j := by
  simp [carry, run, applyGate, upd, hj2, hj3]

theorem run_uncarry_2 (t : Nat → Bool) :
    run (uncarry 0 1 2 3) t 2 = (t 2).xor (t 1) := by
  cases h0 : t 0 <;> cases h1 : t 1 <;> cases h2 : t 2 <;> cases h3 : t 3 <;>
    simp [uncarry, run, applyGate, upd, h0, h1, h2, h3]

theorem run_uncarry_3 (t : Nat → Bool) :
    run (uncarry 0 1 2 3) t 3
      = ((t 3).xor ((t 0) && (t 2))).xor ((t 1) && ((t 2).xor (t 1))) := by
  cases h0 : t 0 <;> cases h1 : t 1 <;> cases h2 : t 2 <;> cases h3 : t 3 <;>
    simp [uncarry, run, applyGate, upd, h0, h1, h2, h3]

theorem run_uncarry_frame (q0 q1 q2 q3 : Nat) (t : Nat → Bool) (j : Nat)
    (hj2 : j ≠ q2) (hj3 : j ≠ q3) : run (uncarry q0 q1 q2 q3) t j = t j := by
  simp [uncarry, run, applyGate, upd, hj2, hj3]

theorem run_carry_sum_2 (t : Nat → Bool) :
    run (carry_sum 0 1 2) t 2 = ((t 2).xor (t 1)).xor (t 0) := by
  cases h0 : t 0 <;> cases h1 : t 1 <;> cases h2 : t 2 <;>
    simp [carry_sum, run, applyGate, upd, h0, h1, h2]

theorem run_carry_sum_frame (q0 q1 q2 : Nat) (t : Nat → Bool) (j : Nat)
    (hj2 : j ≠ q2) : run (carry_sum q0 q1 q2) t j = t j := by
  simp [carry_sum, run, applyGate, upd, hj2]

theorem carry_map (f : Nat → Nat) :
    carry (f 0) (f 1) (f 2) (f 3) = (carry 0 1 2 3).map (mapGate f) := rfl

theorem uncarry_map (f : Nat → Nat) :
    uncarry (f 0) (f 1) (f 2) (f 3) = (uncarry 0 1 2 3).map (mapGate f) := rfl

theorem carry_sum_map (f : Nat → Nat) :
    carry_sum (f 0) (f 1) (f 2) = (carry_sum 0 1 2).map (mapGate f) := rfl

/-! ## Canonical form of the ripple-carry adder

`adderIdx m f` is the gate list `adder` produces on a qubit list whose `i`-th
entry is `f i` (length `3*m`): triplet `i` is `(c,a,b) = (f (3i), f (3i+1), f (3i+2))`. -/

/-- The gate list of `adder` parametrised by the qubit-index map. -/
def adderIdx (m : Nat) (f : Nat → Nat) : List Gate :=
  ((List.range (m - 1)).flatMap fun i =>
    carry (f (3 * i)) (f (3 * i + 1)) (f (3 * i + 2)) (f (3 * i + 3)))
  ++ carry_sum (f (3 * (m - 1))) (f (3 * (m - 1) + 1)) (f (3 * (m - 1) + 2))
  ++ ((List.range (m - 1)).reverse.flatMap fun i =>
    uncarry (f (3 * i)) (f (3 * i + 1)) (f (3 * i + 2)) (f (3 * i + 3))
    ++ carry_sum (f (3 * i)) (f (3 * i + 1)) (f (3 * i + 2)))

theorem adderIdx_one (f : Nat → Nat) :
    adderIdx 1 f = carry_sum (f 0) (f 1) (f 2) := by
  simp [adderIdx]

theorem adderIdx_decomp (k : Nat) (f : Nat → Nat) :
    adderIdx (k + 2) f
      = carry (f 0) (f 1) (f 2) (f 3)
        ++ adderIdx (k + 1) (fun i => f (i + 3))
        ++ uncarry (f 0) (f 1) (f 2) (f 3)
        ++ carry_sum (f 0) (f 1) (f 2) := by
  have hbodyc : ∀ i : Nat, i ∈ List.range k →
      carry (f (3 * Nat.succ i)) (f (3 * Nat.succ i + 1)) (f (3 * Nat.succ i + 2))
        (f (3 * Nat.succ i + 3))
      = carry (f (3 * i + 3)) (f (3 * i + 1 + 3)) (f (3 * i + 2 + 3)) (f (3 * i + 3 + 3)) := by
    intro i _
    have e1 : 3 * Nat.succ i = 3 * i + 3 := by omega
    have e2 : 3 * i + 3 + 1 = 3 * i + 1 + 3 := by omega
    have e3 : 3 * i + 3 + 2 = 3 * i + 2 + 3 := by omega
    have e4 : 3 * i + 3 + 3 = 3 * i + 3 + 3 := rfl
    rw [e1, e2, e3]
  have hbodyu : ∀ i : Nat, i ∈ (List.range k).reverse →
      (uncarry (f (3 * Nat.succ i)) (f (3 * Nat.succ i + 1)) (f (3 * Nat.succ i + 2))
        (f (3 * Nat.succ i + 3))
       ++ carry_sum (f (3 * Nat.succ i)) (f (3 * Nat.succ i + 1)) (f (3 * Nat.succ i + 2)))
      = (uncarry (f (3 * i + 3)) (f (3 * i + 1 + 3)) (f (3 * i + 2 + 3)) (f (3 * i + 3 + 3))
       ++ carry_sum (f (3 * i + 3)) (f (3 * i + 1 + 3)) (f (3 * i + 2 + 3))) := by
    intro i _
    have e1 : 3 * Nat.succ i = 3 * i + 3 := by omega
    have e2 : 3 * i + 3 + 1 = 3 * i + 1 + 3 := by omega
    have e3 : 3 * i + 3 + 2 = 3 * i + 2 + 3 := by omega
    rw [e1, e2, e3]
  show ((List.range (k + 1)).flatMap fun i =>
      carry (f (3 * i)) (f (3 * i + 1)) (f (3 * i + 2)) (f (3 * i + 3)))
    ++ carry_sum (f (3 * (k + 1))) (f (3 * (k + 1) + 1)) (f (3 * (k + 1) + 2))
    ++ ((List.range (k + 1)).reverse.flatMap fun i =>
      uncarry (f (3 * i)) (f (3 * i + 1)) (f (3 * i + 2)) (f (3 * i + 3))
      ++ carry_sum (f (3 * i)) (f (3 * i + 1)) (f (3 * i + 2))) = _
  rw [List.range_succ_eq_map]
  simp only [List.flatMap_cons, List.reverse_cons, List.flatMap_append,
    ← List.map_reverse, List.flatMap_map, List.flatMap_cons, List.flatMap_nil,
    List.append_nil]
  rw [flatMap_congr _ _ _ hbodyc, flatMap_congr _ _ _ hbodyu]
  show carry (f (3 * 0)) (f (3 * 0 + 1)) (f (3 * 0 + 2)) (f (3 * 0 + 3)) ++ _
    ++ _ ++ (_ ++ (uncarry (f (3 * 0)) (f (3 * 0 + 1)) (f (3 * 0 + 2)) (f (3 * 0 + 3))
      ++ carry_sum (f (3 * 0)) (f (3 * 0 + 1)) (f (3 * 0 + 2)))) = _
  have h0 : (3 : Nat) * 0 = 0 := by omega
  have h1 : (3 : Nat) * 0 + 1 = 1 := by omega
  have h2 : (3 : Nat) * 0 + 2 = 2 := by omega
  have h3 : (3 : Nat) * 0 + 3 = 3 := by omega
  rw [h0, h1, h2, h3]
  show _ = carry (f 0) (f 1) (f 2) (f 3)
    ++ (((List.range (k + 1 - 1)).flatMap fun i =>
        carry (f (3 * i + 3)) (f (3 * i + 1 + 3)) (f (3 * i + 2 + 3)) (f (3 * i + 3 + 3)))
      ++ carry_sum (f (3 * (k + 1 - 1) + 3)) (f (3 * (k + 1 - 1) + 1 + 3))
          (f (3 * (k + 1 - 1) + 2 + 3))
      ++ ((List.range (k + 1 - 1)).reverse.flatMap fun i =>
        uncarry (f (3 * i + 3)) (f (3 * i + 1 + 3)) (f (3 * i + 2 + 3)) (f (3 * i + 3 + 3))
        ++ carry_sum (f (3 * i + 3)) (f (3 * i + 1 + 3)) (f (3 * i + 2 + 3))))
    ++ uncarry (f 0) (f 1) (f 2) (f 3) ++ carry_sum (f 0) (f 1) (f 2)
  have hk : k + 1 - 1 = k := by omega
  rw [hk]
  have hmid : 3 * (k + 1) = 3 * k + 3 := by omega
  have hmid1 : 3 * k + 3 + 1 = 3 * k + 1 + 3 := by omega
  have hmid2 : 3 * k + 3 + 2 = 3 * k + 2 + 3 := by omega
  rw [hmid, hmid1, hmid2]
  simp only [List.append_assoc]

theorem adderIdx_congr (m : Nat) (f g : Nat → Nat) (hm : 1 ≤ m)
    (h : ∀ i, i < 3 * m → f i = g i) : adderIdx m f = adderIdx m g := by
  unfold adderIdx
  have hc : ∀ i ∈ List.range (m - 1),
      carry (f (3 * i)) (f (3 * i + 1)) (f (3 * i + 2)) (f (3 * i + 3))
      = carry (g (3 * i)) (g (3 * i + 1)) (g (3 * i + 2)) (g (3 * i + 3)) := by
    intro i hi
    rw [List.mem_range] at hi
    rw [h (3 * i) (by omega), h (3 * i + 1) (by omega), h (3 * i + 2) (by omega),
      h (3 * i + 3) (by omega)]
  have hu : ∀ i ∈ (List.range (m - 1)).reverse,
      (uncarry (f (3 * i)) (f (3 * i + 1)) (f (3 * i + 2)) (f (3 * i + 3))
       ++ carry_sum (f (3 * i)) (f (3 * i + 1)) (f (3 * i + 2)))
      = (uncarry (g (3 * i)) (g (3 * i + 1)) (g (3 * i + 2)) (g (3 * i + 3))
       ++ carry_sum (g (3 * i)) (g (3 * i + 1)) (g (3 * i + 2))) := by
    intro i hi
    rw [List.mem_reverse, List.mem_range] at hi
    rw [h (3 * i) (by omega), h (3 * i + 1) (by omega), h (3 * i + 2) (by omega),
      h (3 * i + 3) (by omega)]
  rw [flatMap_congr _ _ _ hc, flatMap_congr _ _ _ hu,
    h (3 * (m - 1)) (by omega), h (3 * (m - 1) + 1) (by omega),
    h (3 * (m - 1) + 2) (by omega)]

/-- On a list of length `3*m`, `adder` produces exactly the canonical gate
list for the index map `i ↦ qubits[i]`. -/
theorem adder_eq (qubits : List Nat) (m : Nat) (hm : 1 ≤ m)
    (hlen : qubits.length = 3 * m) :
    adder qubits = adderIdx m (fun i => qubits.getD i 0) := by
  have hn : qubits.length / 3 = m := by omega
  have hc : ∀ i : Nat, (everyThird qubits).getD i 0 = qubits.getD (3 * i) 0 :=
    fun i => everyThird_getD qubits i 0
  have ha : ∀ i : Nat, (everyThird (qubits.drop 1)).getD i 0 = qubits.getD (3 * i + 1) 0 := by
    intro i
    rw [everyThird_getD, getD_drop]
    have : 1 + 3 * i = 3 * i + 1 := by omega
    rw [this]
  have hb : ∀ i : Nat, (everyThird (qubits.drop 2)).getD i 0 = qubits.getD (3 * i + 2) 0 := by
    intro i
    rw [everyThird_getD, getD_drop]
    have : 2 + 3 * i = 3 * i + 2 := by omega
    rw [this]
  unfold adder adderIdx
  simp only [hn]
  have hfirst : ∀ i ∈ List.range (m - 1),
      carry ((everyThird qubits).getD i 0) ((everyThird (qubits.drop 1)).getD i 0)
        ((everyThird (qubits.drop 2)).getD i 0) ((everyThird qubits).getD (i + 1) 0)
      = carry (qubits.getD (3 * i) 0) (qubits.getD (3 * i + 1) 0)
        (qubits.getD (3 * i + 2) 0) (qubits.getD (3 * i + 3) 0) := by
    intro i _
    rw [hc, ha, hb, hc]
    have : 3 * (i + 1) = 3 * i + 3 := by omega
    rw [this]
  have hlast : ∀ i ∈ (List.range (m - 1)).reverse,
      (uncarry ((everyThird qubits).getD i 0) ((everyThird (qubits.drop 1)).getD i 0)
        ((everyThird (qubits.drop 2)).getD i 0) ((everyThird qubits).getD (i + 1) 0)
       ++ carry_sum ((everyThird qubits).getD i 0) ((everyThird (qubits.drop 1)).getD i 0)
        ((everyThird (qubits.drop 2)).getD i 0))
      = (uncarry (qubits.getD (3 * i) 0) (qubits.getD (3 * i + 1) 0)
        (qubits.getD (3 * i + 2) 0) (qubits.getD (3 * i + 3) 0)
       ++ carry_sum (qubits.getD (3 * i) 0) (qubits.getD (3 * i + 1) 0)
        (qubits.getD (3 * i + 2) 0)) := by
    intro i _
    rw [hc, ha, hb, hc]
    have : 3 * (i + 1) = 3 * i + 3 := by omega
    rw [this]
  rw [flatMap_congr _ _ _ hfirst, flatMap_congr _ _ _ hlast, hc, ha, hb]

/-- All qubit indices referenced by a gate (controls, targets and measured
qubits; the classical bit of a measurement is not a qubit index). -/
def gateQubits : Gate → List Nat
  | .x t => [t]
  | .cx c t => [c, t]
  | .ccx c1 c2 t => [c1, c2, t]
  | .measure q _ => [q]

theorem gateTargets_subset (g : Gate) : ∀ t ∈ gateTargets g, t ∈ gateQubits g := by
  cases g <;> simp [gateTargets, gateQubits]

theorem carry_qubits (q0 q1 q2 q3 : Nat) :
    ∀ g ∈ carry q0 q1 q2 q3, ∀ q ∈ gateQubits g,
      q = q0 ∨ q = q1 ∨ q = q2 ∨ q = q3 := by
  intro g hg q hq
  simp only [carry, List.mem_cons, List.not_mem_nil, or_false] at hg
  rcases hg with rfl | rfl | rfl <;>
    simp only [gateQubits, List.mem_cons, List.not_mem_nil, or_false] at hq <;>
    tauto

theorem uncarry_qubits (q0 q1 q2 q3 : Nat) :
    ∀ g ∈ uncarry q0 q1 q2 q3, ∀ q ∈ gateQubits g,
      q = q0 ∨ q = q1 ∨ q = q2 ∨ q = q3 := by
  intro g hg q hq
  simp only [uncarry, List.mem_cons, List.not_mem_nil, or_false] at hg
  rcases hg with rfl | rfl | rfl <;>
    simp only [gateQubits, List.mem_cons, List.not_mem_nil, or_false] at hq <;>
    tauto

theorem carry_sum_qubits (q0 q1 q2 : Nat) :
    ∀ g ∈ carry_sum q0 q1 q2, ∀ q ∈ gateQubits g,
      q = q0 ∨ q = q1 ∨ q = q2 := by
  intro g hg q hq
  simp only [carry_sum, List.mem_cons, List.not_mem_nil, or_false] at hg
  rcases hg with rfl | rfl <;>
    simp only [gateQubits, List.mem_cons, List.not_mem_nil, or_false] at hq <;>
    tauto

/-- Every gate of `adderIdx m f` involves only qubits `f i` with `i < 3*m`. -/
theorem adderIdx_qubits (m : Nat) (f : Nat → Nat) (hm : 1 ≤ m) :
    ∀ g ∈ adderIdx m f, ∀ q ∈ gateQubits g, ∃ i, i < 3 * m ∧ q = f i := by
  intro g hg q hq
  simp only [adderIdx, List.mem_append, List.mem_flatMap, List.mem_reverse,
    List.mem_range] at hg
  rcases hg with (⟨i, hi, hgi⟩ | hmid) | ⟨i, hi, hgi⟩
  · rcases carry_qubits _ _ _ _ g hgi q hq with h | h | h | h
    · exact ⟨3 * i, by omega, h⟩
    · exact ⟨3 * i + 1, by omega, h⟩
    · exact ⟨3 * i + 2, by omega, h⟩
    · exact ⟨3 * i + 3, by omega, h⟩
  · rcases carry_sum_qubits _ _ _ g hmid q hq with h | h | h
    · exact ⟨3 * (m - 1), by omega, h⟩
    · exact ⟨3 * (m - 1) + 1, by omega, h⟩
    · exact ⟨3 * (m - 1) + 2, by omega, h⟩
  · rcases hgi with hgu | hgs
    · rcases uncarry_qubits _ _ _ _ g hgu q hq with h | h | h | h
      · exact ⟨3 * i, by omega, h⟩
      · exact ⟨3 * i + 1, by omega, h⟩
      · exact ⟨3 * i + 2, by omega, h⟩
      · exact ⟨3 * i + 3, by omega, h⟩
    · rcases carry_sum_qubits _ _ _ g hgs q hq with h | h | h
      · exact ⟨3 * i, by omega, h⟩
      · exact ⟨3 * i + 1, by omega, h⟩
      · exact ⟨3 * i + 2, by omega, h⟩

/-- Frame rule for the adder: a qubit outside the image of the index map is
untouched. -/
theorem adderIdx_frame (m : Nat) (f : Nat → Nat) (hm : 1 ≤ m)
    (s : Nat → Bool) (j : Nat) (hj : ∀ i, i < 3 * m → f i ≠ j) :
    run (adderIdx m f) s j = s j := by
  refine run_frame _ s j (fun g hg t ht => ?_)
  obtain ⟨i, hi, rfl⟩ := adderIdx_qubits m f hm g hg t (gateTargets_subset g t ht)
  exact hj i hi

/-! ## Arithmetic helpers for the adder proof -/

theorem testBit_zero_of_sum (a0 b0 c0 : Bool) (A B : Nat) :
    (a0.toNat + 2 * A + (b0.toNat + 2 * B) + c0.toNat).testBit 0
      = (b0.xor a0).xor c0 := by
  rw [Nat.testBit_zero]
  have h : (a0.toNat + 2 * A + (b0.toNat + 2 * B) + c0.toNat) % 2
      = (a0.toNat + b0.toNat + c0.toNat) % 2 := by omega
  rw [h]
  cases a0 <;> cases b0 <;> cases c0 <;> rfl

theorem testBit_succ_of_sum (v : Bool) (M i : Nat) :
    (v.toNat + 2 * M).testBit (i + 1) = M.testBit i := by
  rw [Nat.testBit_succ]
  have h : (v.toNat + 2 * M) / 2 = M := by cases v <;> simp <;> omega
  rw [h]

theorem bool_sum_decomp (a0 b0 c0 : Bool) :
    a0.toNat + b0.toNat + c0.toNat
      = ((b0.xor a0).xor c0).toNat
        + 2 * ((a0 && b0).xor (c0 && (b0.xor a0))).toNat := by
  cases a0 <;> cases b0 <;> cases c0 <;> rfl

theorem uncarry_restores (a0 b0 c0 : Bool) :
    ((((a0 && b0).xor (c0 && (b0.xor a0))).xor (c0 && (b0.xor a0))).xor
        (a0 && ((b0.xor a0).xor a0))) = false := by
  cases a0 <;> cases b0 <;> cases c0 <;> rfl

theorem sum_bit0_tangle (a0 b0 c0 : Bool) :
    (((b0.xor a0).xor a0).xor a0).xor c0 = (b0.xor a0).xor c0 := by
  cases a0 <;> cases b0 <;> cases c0 <;> rfl


theorem testBit_zero_of_pair (v : Bool) (M : Nat) :
    (v.toNat + 2 * M).testBit 0 = v := by
  cases v <;> simp [Nat.testBit_zero] <;> omega

theorem regVal_succ (s : Nat → Bool) (q : Nat → Nat) (m : Nat) :
    regVal s q (m + 1) = (s (q 0)).toNat + 2 * regVal s (fun i => q (i + 1)) m :=
  rfl

/-- Correctness of the canonical ripple-carry adder: with the carries
`c[1..m-1]` cleared, the b-register ends up holding the bits of
`a + b + c[0]`, while the a-register and all carries are left unchanged. -/
theorem adderIdx_correct (k : Nat) :
    ∀ (f : Nat → Nat), Function.Injective f → ∀ (s : Nat → Bool),
      (∀ i, 1 ≤ i → i < k + 1 → s (f (3 * i)) = false) →
      (∀ i, i < k + 1 → run (adderIdx (k + 1) f) s (f (3 * i + 2))
          = (regVal s (fun i => f (3 * i + 1)) (k + 1)
             + regVal s (fun i => f (3 * i + 2)) (k + 1)
             + (s (f 0)).toNat).testBit i)
      ∧ (∀ i, i < k + 1 →
          run (adderIdx (k + 1) f) s (f (3 * i + 1)) = s (f (3 * i + 1)))
      ∧ (∀ i, i < k + 1 →
          run (adderIdx (k + 1) f) s (f (3 * i)) = s (f (3 * i))) := by
  induction k with
  | zero =>
      intro f hf s _
      simp only [Nat.zero_add]
      rw [adderIdx_one]
      refine ⟨?_, ?_, ?_⟩
      · intro i hi
        interval_cases i
        have hv : run (carry_sum (f 0) (f 1) (f 2)) s (f 2)
            = ((s (f 2)).xor (s (f 1))).xor (s (f 0)) := by
          rw [carry_sum_map f, run_map f hf]
          exact run_carry_sum_2 _
        have h2 : (3 : Nat) * 0 + 2 = 2 := by omega
        rw [h2, hv]
        have harith : regVal s (fun i => f (3 * i + 1)) 1
              + regVal s (fun i => f (3 * i + 2)) 1 + (s (f 0)).toNat
            = (s (f 1)).toNat + 2 * 0 + ((s (f 2)).toNat + 2 * 0)
              + (s (f 0)).toNat := by
          simp [regVal]
        rw [harith, testBit_zero_of_sum]
      · intro i hi
        interval_cases i
        have h1 : (3 : Nat) * 0 + 1 = 1 := by omega
        rw [h1]
        exact run_carry_sum_frame _ _ _ s (f 1) (hf.ne (by omega))
      · intro i hi
        interval_cases i
        have h0 : (3 : Nat) * 0 = 0 := by omega
        rw [h0]
        exact run_carry_sum_frame _ _ _ s (f 0) (hf.ne (by omega))
  | succ k ih =>
      intro f hf s hc
      have hf' : Function.Injective (fun i => f (i + 3)) := by
        intro a b hab
        have := hf hab
        omega
      set f' : Nat → Nat := fun i => f (i + 3) with hf'def
      set s1 : Nat → Bool := run (carry (f 0) (f 1) (f 2) (f 3)) s with hs1
      set s2 : Nat → Bool := run (adderIdx (k + 1) f') s1 with hs2
      set s3 : Nat → Bool := run (uncarry (f 0) (f 1) (f 2) (f 3)) s2 with hs3
      have hsplit : run (adderIdx (k + 1 + 1) f) s
          = run (carry_sum (f 0) (f 1) (f 2)) s3 := by
        show run (adderIdx (k + 2) f) s = _
        rw [adderIdx_decomp k f]
        simp only [run_append]
      -- values after the first carry block
      have s1_2 : s1 (f 2) = (s (f 2)).xor (s (f 1)) := by
        rw [hs1, carry_map f, run_map f hf]
        exact run_carry_2 _
      have hcf3 : s (f 3) = false := by
        have h := hc 1 (by omega) (by omega)
        have e : 3 * 1 = 3 := by omega
        rw [e] at h
        exact h
      have s1_3 : s1 (f 3)
          = ((s (f 1)) && (s (f 2))).xor ((s (f 0)) && ((s (f 2)).xor (s (f 1)))) := by
        rw [hs1, carry_map f, run_map f hf]
        have h := run_carry_3 (fun j => s (f j))
        simp only at h
        rw [h, hcf3]
        cases (s (f 1)) && (s (f 2)) <;>
          cases (s (f 0)) && ((s (f 2)).xor (s (f 1))) <;> rfl
      have s1_keep : ∀ p : Nat, p ≠ f 2 → p ≠ f 3 → s1 p = s p := by
        intro p h2 h3
        rw [hs1]
        exact run_carry_frame _ _ _ _ s p h2 h3
      have hc' : ∀ i, 1 ≤ i → i < k + 1 → s1 (f' (3 * i)) = false := by
        intro i h1 h2
        have he : f' (3 * i) = f (3 * (i + 1)) := by
          show f (3 * i + 3) = f (3 * (i + 1))
          congr 1
        rw [he, s1_keep (f (3 * (i + 1))) (hf.ne (by omega)) (hf.ne (by omega))]
        exact hc (i + 1) (by omega) (by omega)
      obtain ⟨IH1, IH2, IH3⟩ := ih f' hf' s1 hc'
      have s2_3 : s2 (f 3)
          = ((s (f 1)) && (s (f 2))).xor ((s (f 0)) && ((s (f 2)).xor (s (f 1)))) := by
        have h30 : f' (3 * 0) = f 3 := by
          show f (3 * 0 + 3) = f 3
          congr 1
        have h := IH3 0 (by omega)
        rw [h30] at h
        rw [hs2]
        rw [← hs2]
        calc s2 (f 3) = s1 (f 3) := h
          _ = _ := s1_3
      have s2_keep : ∀ p : Nat, (∀ i, i < 3 * (k + 1) → f' i ≠ p) → s2 p = s1 p := by
        intro p hp
        rw [hs2]
        exact adderIdx_frame (k + 1) f' (by omega) s1 p hp
      have himg : ∀ r : Nat, r ≤ 2 → ∀ i, i < 3 * (k + 1) → f' i ≠ f r := by
        intro r hr i _
        show f (i + 3) ≠ f r
        exact hf.ne (by omega)
      have s2_0 : s2 (f 0) = s (f 0) := by
        rw [s2_keep (f 0) (himg 0 (by omega))]
        exact s1_keep _ (hf.ne (by omega)) (hf.ne (by omega))
      have s2_1 : s2 (f 1) = s (f 1) := by
        rw [s2_keep (f 1) (himg 1 (by omega))]
        exact s1_keep _ (hf.ne (by omega)) (hf.ne (by omega))
      have s2_2 : s2 (f 2) = (s (f 2)).xor (s (f 1)) := by
        rw [s2_keep (f 2) (himg 2 (by omega))]
        exact s1_2
      -- values after the uncarry block
      have s3_keep : ∀ p : Nat, p ≠ f 2 → p ≠ f 3 → s3 p = s2 p := by
        intro p h2 h3
        rw [hs3]
        exact run_uncarry_frame _ _ _ _ s2 p h2 h3
      have s3_2 : s3 (f 2) = (s2 (f 2)).xor (s2 (f 1)) := by
        rw [hs3, uncarry_map f, run_map f hf]
        exact run_uncarry_2 _
      have s3_3 : s3 (f 3) = false := by
        rw [hs3, uncarry_map f, run_map f hf]
        have h := run_uncarry_3 (fun j => s2 (f j))
        simp only at h
        rw [h]
        rw [show run (uncarry 0 1 2 3) (fun j => s2 (f j)) 3
            = run (uncarry 0 1 2 3) (fun j => s2 (f j)) 3 from rfl] at h
        rw [s2_3, s2_0, s2_1, s2_2]
        exact uncarry_restores (s (f 1)) (s (f 2)) (s (f 0))
      -- final values
      have s4_keep : ∀ p : Nat, p ≠ f 2 →
          run (carry_sum (f 0) (f 1) (f 2)) s3 p = s3 p := by
        intro p h2
        exact run_carry_sum_frame _ _ _ s3 p h2
      have s4_2 : run (carry_sum (f 0) (f 1) (f 2)) s3 (f 2)
          = ((s3 (f 2)).xor (s3 (f 1))).xor (s3 (f 0)) := by
        rw [carry_sum_map f, run_map f hf]
        exact run_carry_sum_2 _
      -- decomposition of the numeric sum
      have hNdecomp :
          regVal s (fun i => f (3 * i + 1)) (k + 1 + 1)
            + regVal s (fun i => f (3 * i + 2)) (k + 1 + 1) + (s (f 0)).toNat
          = (((s (f 2)).xor (s (f 1))).xor (s (f 0))).toNat
            + 2 * (regVal s1 (fun i => f' (3 * i + 1)) (k + 1)
                   + regVal s1 (fun i => f' (3 * i + 2)) (k + 1)
                   + (s1 (f' 0)).toNat) := by
        have hA : regVal s (fun i => f (3 * i + 1)) (k + 1 + 1)
            = (s (f 1)).toNat + 2 * regVal s1 (fun i => f' (3 * i + 1)) (k + 1) := by
          rw [regVal_succ]
          have hcongr : regVal s1 (fun i => f' (3 * i + 1)) (k + 1)
              = regVal s (fun i => f (3 * (i + 1) + 1)) (k + 1) := by
            refine regVal_congr _ _ _ _ (k + 1) (fun i _ => ?_)
            show s1 (f (3 * i + 1 + 3)) = s (f (3 * (i + 1) + 1))
            have he : 3 * i + 1 + 3 = 3 * (i + 1) + 1 := by omega
            rw [he]
            exact s1_keep _ (hf.ne (by omega)) (hf.ne (by omega))
          rw [hcongr]
        have hB : regVal s (fun i => f (3 * i + 2)) (k + 1 + 1)
            = (s (f 2)).toNat + 2 * regVal s1 (fun i => f' (3 * i + 2)) (k + 1) := by
          rw [regVal_succ]
          have hcongr : regVal s1 (fun i => f' (3 * i + 2)) (k + 1)
              = regVal s (fun i => f (3 * (i + 1) + 2)) (k + 1) := by
            refine regVal_congr _ _ _ _ (k + 1) (fun i _ => ?_)
            show s1 (f (3 * i + 2 + 3)) = s (f (3 * (i + 1) + 2))
            have he : 3 * i + 2 + 3 = 3 * (i + 1) + 2 := by omega
            rw [he]
            exact s1_keep _ (hf.ne (by omega)) (hf.ne (by omega))
          rw [hcongr]
        have hk0 : s1 (f' 0) = ((s (f 1)) && (s (f 2))).xor
            ((s (f 0)) && ((s (f 2)).xor (s (f 1)))) := by
          show s1 (f (0 + 3)) = _
          have he : (0 : Nat) + 3 = 3 := by omega
          rw [he]
          exact s1_3
        rw [hA, hB, hk0]
        have hd := bool_sum_decomp (s (f 1)) (s (f 2)) (s (f 0))
        omega
      refine ⟨?_, ?_, ?_⟩
      · -- the b-register holds the bits of the sum
        intro i hi
        rw [hsplit]
        cases i with
        | zero =>
            have h2 : (3 : Nat) * 0 + 2 = 2 := by omega
            rw [h2, s4_2, s3_2,
              s3_keep (f 1) (hf.ne (by omega)) (hf.ne (by omega)),
              s3_keep (f 0) (hf.ne (by omega)) (hf.ne (by omega)),
              s2_2, s2_1, s2_0, hNdecomp, testBit_zero_of_pair]
            exact sum_bit0_tangle (s (f 1)) (s (f 2)) (s (f 0))
        | succ i =>
            have he : f (3 * (i + 1) + 2) = f' (3 * i + 2) := by
              show _ = f (3 * i + 2 + 3)
              congr 1
            rw [he,
              s4_keep (f' (3 * i + 2)) (hf.ne (by omega)),
              s3_keep (f' (3 * i + 2)) (hf.ne (by omega)) (hf.ne (by omega)),
              hs2, IH1 i (by omega), hNdecomp, testBit_succ_of_sum]
      · -- the a-register is unchanged
        intro i hi
        rw [hsplit]
        cases i with
        | zero =>
            have h1 : (3 : Nat) * 0 + 1 = 1 := by omega
            rw [h1, s4_keep (f 1) (hf.ne (by omega)),
              s3_keep (f 1) (hf.ne (by omega)) (hf.ne (by omega))]
            exact s2_1
        | succ i =>
            have he : f (3 * (i + 1) + 1) = f' (3 * i + 1) := by
              show _ = f (3 * i + 1 + 3)
              congr 1
            rw [he,
              s4_keep (f' (3 * i + 1)) (hf.ne (by omega)),
              s3_keep (f' (3 * i + 1)) (hf.ne (by omega)) (hf.ne (by omega)),
              hs2, IH2 i (by omega)]
            exact s1_keep _ (hf.ne (by omega)) (hf.ne (by omega))
      · -- the carry register is unchanged
        intro i hi
        rw [hsplit]
        cases i with
        | zero =>
            have h0 : (3 : Nat) * 0 = 0 := by omega
            rw [h0, s4_keep (f 0) (hf.ne (by omega)),
              s3_keep (f 0) (hf.ne (by omega)) (hf.ne (by omega))]
            exact s2_0
        | succ i =>
            cases i with
            | zero =>
                have he : (3 : Nat) * (0 + 1) = 3 := by omega
                rw [he, s4_keep (f 3) (hf.ne (by omega)), s3_3, hcf3]
            | succ i =>
                have he : f (3 * (i + 1 + 1)) = f' (3 * (i + 1)) := by
                  show _ = f (3 * (i + 1) + 3)
                  congr 1
                rw [he,
                  s4_keep (f' (3 * (i + 1))) (hf.ne (by omega)),
                  s3_keep (f' (3 * (i + 1))) (hf.ne (by omega)) (hf.ne (by omega)),
                  hs2, IH3 (i + 1) (by omega)]
                have he2 : f' (3 * (i + 1)) = f (3 * (i + 1) + 3) := rfl
                rw [he2]
                exact s1_keep _ (hf.ne (by omega)) (hf.ne (by omega))

theorem getD_map_range (n : Nat) (f : Nat → Nat) (i : Nat) (hi : i < n) :
    ((List.range n).map f).getD i 0 = f i := by
  have hlt : i < ((List.range n).map f).length := by simpa using hi
  rw [List.getD_eq_getElem _ _ hlt]
  simp

/-- C2: for every `m ≥ 1` and every classical basis state over the interleaved
triplet qubits `(c i, a i, b i) = (f (3i), f (3i+1), f (3i+2))` (any distinct
qubit indices, i.e. any injective index map `f`) in which the carries
`c 1 .. c (m-1)` are 0, running `adder` leaves the b-qubits holding the m-bit
sum `(a + b + c 0) mod 2^m` (least-significant bit in `b 0`), and leaves every
a-qubit unchanged. -/
theorem adder_spec (m : Nat) (hm : 1 ≤ m) (f : Nat → Nat)
    (hf : Function.Injective f) (s : Nat → Bool)
    (hc : ∀ i, 1 ≤ i → i < m → s (f (3 * i)) = false) :
    regVal (run (adder ((List.range (3 * m)).map f)) s) (fun i => f (3 * i + 2)) m
      = (regVal s (fun i => f (3 * i + 1)) m
         + regVal s (fun i => f (3 * i + 2)) m + (s (f 0)).toNat) % 2 ^ m
    ∧ ∀ i, i < m → run (adder ((List.range (3 * m)).map f)) s (f (3 * i + 1))
        = s (f (3 * i + 1)) := by
  have hlen : ((List.range (3 * m)).map f).length = 3 * m := by simp
  have hadder : adder ((List.range (3 * m)).map f) = adderIdx m f := by
    rw [adder_eq _ m hm hlen]
    refine adderIdx_congr m _ f hm (fun i hi => ?_)
    exact getD_map_range (3 * m) f i hi
  rw [hadder]
  obtain ⟨k, rfl⟩ : ∃ k, m = k + 1 := ⟨m - 1, by omega⟩
  obtain ⟨H1, H2, H3⟩ := adderIdx_correct k f hf s hc
  constructor
  · exact regVal_of_testBit _ _ (k + 1) _ H1
  · exact H2

/-- Witness for C2 at `m = 1`, `f = id`, the basis state with `a 0 = 1` and
all other qubits 0: the b-qubit ends holding `(1 + 0 + 0) mod 2 = 1`. -/
theorem adder_spec_witness :
    regVal (run (adder ((List.range (3 * 1)).map (fun i : Nat => i)))
        (fun j => decide (j = 1))) (fun i => 3 * i + 2) 1 = 1 :=
  Trans.trans
    ((adder_spec 1 (by omega) (fun i : Nat => i) (fun a b h => h)
      (fun j => decide (j = 1)) (fun i h1 h2 => by omega)).1)
    (by decide)

/-! ## The majority / unmajority pair (C3, C4) -/

theorem run_maj_uma_0 (t : Nat → Bool) :
    run (apply_majority_gate 0 1 2 ++ undo_majority_gate 0 1 2) t 0 = t 0 := by
  cases h0 : t 0 <;> cases h1 : t 1 <;> cases h2 : t 2 <;>
    simp [apply_majority_gate, undo_majority_gate, run, applyGate, upd, h0, h1, h2]

theorem run_maj_uma_2 (t : Nat → Bool) :
    run (apply_majority_gate 0 1 2 ++ undo_majority_gate 0 1 2) t 2 = t 2 := by
  cases h0 : t 0 <;> cases h1 : t 1 <;> cases h2 : t 2 <;>
    simp [apply_majority_gate, undo_majority_gate, run, applyGate, upd, h0, h1, h2]

theorem run_maj_uma_1 (t : Nat → Bool) :
    run (apply_majority_gate 0 1 2 ++ undo_majority_gate 0 1 2) t 1
      = ((t 1).xor (t 2)).xor (t 0) := by
  cases h0 : t 0 <;> cases h1 : t 1 <;> cases h2 : t 2 <;>
    simp [apply_majority_gate, undo_majority_gate, run, applyGate, upd, h0, h1, h2]

theorem run_maj_uma_frame (q0 q1 q2 : Nat) (t : Nat → Bool) (j : Nat)
    (h0 : j ≠ q0) (h1 : j ≠ q1) (h2 : j ≠ q2) :
    run (apply_majority_gate q0 q1 q2 ++ undo_majority_gate q0 q1 q2) t j = t j := by
  simp [apply_majority_gate, undo_majority_gate, run, applyGate, upd, h0, h1, h2]

theorem maj_uma_map (f : Nat → Nat) :
    apply_majority_gate (f 0) (f 1) (f 2) ++ undo_majority_gate (f 0) (f 1) (f 2)
      = ((apply_majority_gate 0 1 2 ++ undo_majority_gate 0 1 2)).map (mapGate f) := rfl

/-- C3 counterexample: on the classical basis state of three distinct qubits
`(0,1,2)` with qubit 0 (operand `a`) set and qubits 1, 2 clear, running
`apply_majority_gate` immediately followed by `undo_majority_gate` with the
same operands flips qubit 1 (operand `b`): the 6-gate sequence is NOT the
identity on basis states. -/
theorem maj_uma_not_inverse :
    run (apply_majority_gate 0 1 2 ++ undo_majority_gate 0 1 2)
        (fun j => decide (j = 0)) 1
      ≠ (fun j => decide (j = 0)) 1 := by decide

/-- C3 (amended): `undo_majority_gate` applied immediately after
`apply_majority_gate` with the same three distinct operands `(a,b,c) =
(f 0, f 1, f 2)` restores qubits `a` and `c` to their initial values, leaves
every other qubit untouched, and replaces the value of qubit `b` by the XOR
of the three initial values (the reversible sum bit); the combined sequence
is therefore the identity on a basis state exactly when that XOR equals the
initial value of `b`, i.e. when `a XOR c = 0`. -/
theorem maj_uma_spec (f : Nat → Nat) (hf : Function.Injective f) (s : Nat → Bool) :
    run (apply_majority_gate (f 0) (f 1) (f 2) ++ undo_majority_gate (f 0) (f 1) (f 2))
        s (f 0) = s (f 0)
    ∧ run (apply_majority_gate (f 0) (f 1) (f 2) ++ undo_majority_gate (f 0) (f 1) (f 2))
        s (f 2) = s (f 2)
    ∧ run (apply_majority_gate (f 0) (f 1) (f 2) ++ undo_majority_gate (f 0) (f 1) (f 2))
        s (f 1) = ((s (f 1)).xor (s (f 2))).xor (s (f 0))
    ∧ ∀ j, j ≠ f 0 → j ≠ f 1 → j ≠ f 2 →
        run (apply_majority_gate (f 0) (f 1) (f 2) ++ undo_majority_gate (f 0) (f 1) (f 2))
          s j = s j := by
  refine ⟨?_, ?_, ?_, ?_⟩
  · rw [maj_uma_map f, run_map f hf]
    exact run_maj_uma_0 _
  · rw [maj_uma_map f, run_map f hf]
    exact run_maj_uma_2 _
  · rw [maj_uma_map f, run_map f hf]
    exact run_maj_uma_1 _
  · intro j h0 h1 h2
    exact run_maj_uma_frame _ _ _ s j h0 h1 h2

/-- Witness for the amended C3 at `f = id` on the basis state with qubit 0
set: qubits 0 and 2 are restored and qubit 1 ends as `0 XOR 0 XOR 1 = 1`. -/
theorem maj_uma_spec_witness :
    run (apply_majority_gate ((fun i : Nat => i) 0) ((fun i : Nat => i) 1)
          ((fun i : Nat => i) 2)
        ++ undo_majority_gate ((fun i : Nat => i) 0) ((fun i : Nat => i) 1)
          ((fun i : Nat => i) 2))
      (fun j => decide (j = 0)) 1
      = ((decide ((1 : Nat) = 0)).xor (decide ((2 : Nat) = 0))).xor
          (decide ((0 : Nat) = 0)) :=
  (maj_uma_spec (fun i : Nat => i) (fun a b h => h) (fun j => decide (j = 0))).2.2.1

theorem applyGate_eq_of_agree (g : Gate) (s s' : Nat → Bool)
    (h : ∀ q ∈ gateQubits g, s q = s' q) :
    ∀ j, s j = s' j → applyGate g s j = applyGate g s' j := by
  intro j hj
  cases g with
  | x t =>
      simp only [gateQubits, List.mem_singleton, forall_eq] at h
      simp only [applyGate, upd]
      by_cases hjt : j = t
      · simp [hjt, h]
      · simp [hjt, hj]
  | cx c t =>
      simp only [gateQubits, List.mem_cons, List.not_mem_nil, or_false] at h
      simp only [applyGate, upd]
      by_cases hjt : j = t
      · simp [hjt, h t (Or.inr rfl), h c (Or.inl rfl)]
      · simp [hjt, hj]
  | ccx c1 c2 t =>
      simp only [gateQubits, List.mem_cons, List.not_mem_nil, or_false] at h
      simp only [applyGate, upd]
      by_cases hjt : j = t
      · simp [hjt, h c1 (Or.inl rfl), h c2 (Or.inr (Or.inl rfl)),
          h t (Or.inr (Or.inr rfl))]
      · simp [hjt, hj]
  | measure q c => exact hj

/-- The run of a gate list depends only on the values at the qubits the gates
reference (plus the observation point). -/
theorem run_eq_of_agree (gs : List Gate) :
    ∀ (s s' : Nat → Bool),
      (∀ q, q ∈ gs.flatMap gateQubits → s q = s' q) →
      ∀ j, s j = s' j → run gs s j = run gs s' j := by
  induction gs with
  | nil => intro s s' _ j hj; exact hj
  | cons g rest ih =>
      intro s s' h j hj
      simp only [run_cons]
      have hg : ∀ q ∈ gateQubits g, s q = s' q := by
        intro q hq
        exact h q (by simp [List.flatMap_cons, hq])
      refine ih (applyGate g s) (applyGate g s') ?_ j
        (applyGate_eq_of_agree g s s' hg j hj)
      intro q hq
      refine applyGate_eq_of_agree g s s' hg q (h q ?_)
      simp only [List.flatMap_cons, List.mem_append]
      right
      exact hq

set_option maxHeartbeats 4000000 in
/-- Truth table of the 4-bit block at canonical qubits `0..9` (a = 0..3,
b = 4..7, carryIn = 8, carryOut = 9 initially 0), checked over all 512
classical inputs: b ends holding `(a + b + cin) mod 16`, carryOut receives
the carry, and a and carryIn are unchanged. -/
theorem add4_table :
    ∀ v0 v1 v2 v3 v4 v5 v6 v7 v8 : Bool,
      regVal (run (add_four_bits [0,1,2,3] [4,5,6,7] 8 9)
          (fun j => [v0,v1,v2,v3,v4,v5,v6,v7,v8,false].getD j false)) (fun i => i + 4) 4
        = (regVal (fun j => [v0,v1,v2,v3,v4,v5,v6,v7,v8,false].getD j false) (fun i => i) 4
           + regVal (fun j => [v0,v1,v2,v3,v4,v5,v6,v7,v8,false].getD j false)
              (fun i => i + 4) 4
           + v8.toNat) % 16
      ∧ run (add_four_bits [0,1,2,3] [4,5,6,7] 8 9)
          (fun j => [v0,v1,v2,v3,v4,v5,v6,v7,v8,false].getD j false) 9
        = decide (16 ≤
            regVal (fun j => [v0,v1,v2,v3,v4,v5,v6,v7,v8,false].getD j false) (fun i => i) 4
            + regVal (fun j => [v0,v1,v2,v3,v4,v5,v6,v7,v8,false].getD j false)
               (fun i => i + 4) 4
            + v8.toNat)
      ∧ (run (add_four_bits [0,1,2,3] [4,5,6,7] 8 9)
            (fun j => [v0,v1,v2,v3,v4,v5,v6,v7,v8,false].getD j false) 0 = v0
         ∧ run (add_four_bits [0,1,2,3] [4,5,6,7] 8 9)
            (fun j => [v0,v1,v2,v3,v4,v5,v6,v7,v8,false].getD j false) 1 = v1
         ∧ run (add_four_bits [0,1,2,3] [4,5,6,7] 8 9)
            (fun j => [v0,v1,v2,v3,v4,v5,v6,v7,v8,false].getD j false) 2 = v2
         ∧ run (add_four_bits [0,1,2,3] [4,5,6,7] 8 9)
            (fun j => [v0,v1,v2,v3,v4,v5,v6,v7,v8,false].getD j false) 3 = v3)
      ∧ run (add_four_bits [0,1,2,3] [4,5,6,7] 8 9)
          (fun j => [v0,v1,v2,v3,v4,v5,v6,v7,v8,false].getD j false) 8 = v8 := by
  decide

theorem add_four_bits_map (f : Nat → Nat) :
    add_four_bits [f 0, f 1, f 2, f 3] [f 4, f 5, f 6, f 7] (f 8) (f 9)
      = (add_four_bits [0, 1, 2, 3] [4, 5, 6, 7] 8 9).map (mapGate f) := rfl

/-- C4: on ten distinct qubits `f 0 .. f 9` (a-qubits `f 0..f 3`, b-qubits
`f 4..f 7`, carryIn `f 8`, carryOut `f 9` initially 0), `add_four_bits`
leaves the b-qubits holding the 4-bit sum `(a + b + carryIn) mod 16`, sets
carryOut to the carry out of the 4-bit addition, and leaves the a-qubits and
carryIn with their initial values. -/
theorem add_four_bits_spec (f : Nat → Nat) (hf : Function.Injective f)
    (s : Nat → Bool) (h9 : s (f 9) = false) :
    regVal (run (add_four_bits [f 0, f 1, f 2, f 3] [f 4, f 5, f 6, f 7] (f 8) (f 9)) s)
        (fun i => f (i + 4)) 4
      = (regVal s (fun i => f i) 4 + regVal s (fun i => f (i + 4)) 4
         + (s (f 8)).toNat) % 16
    ∧ run (add_four_bits [f 0, f 1, f 2, f 3] [f 4, f 5, f 6, f 7] (f 8) (f 9)) s (f 9)
      = decide (16 ≤ regVal s (fun i => f i) 4 + regVal s (fun i => f (i + 4)) 4
          + (s (f 8)).toNat)
    ∧ (∀ i, i < 4 →
        run (add_four_bits [f 0, f 1, f 2, f 3] [f 4, f 5, f 6, f 7] (f 8) (f 9)) s (f i)
          = s (f i))
    ∧ run (add_four_bits [f 0, f 1, f 2, f 3] [f 4, f 5, f 6, f 7] (f 8) (f 9)) s (f 8)
      = s (f 8) := by
  have hq10 : ∀ q, q < 10 → s (f q)
      = (fun j => [s (f 0), s (f 1), s (f 2), s (f 3), s (f 4), s (f 5), s (f 6),
          s (f 7), s (f 8), false].getD j false) q := by
    intro q hq
    interval_cases q <;> first | rfl | exact h9
  have hbound : ∀ q, q ∈ (add_four_bits [0, 1, 2, 3] [4, 5, 6, 7] 8 9).flatMap gateQubits
      → q < 10 := by decide
  have htrans : ∀ j, j < 10 →
      run (add_four_bits [f 0, f 1, f 2, f 3] [f 4, f 5, f 6, f 7] (f 8) (f 9)) s (f j)
      = run (add_four_bits [0, 1, 2, 3] [4, 5, 6, 7] 8 9)
          (fun q => [s (f 0), s (f 1), s (f 2), s (f 3), s (f 4), s (f 5), s (f 6),
            s (f 7), s (f 8), false].getD q false) j := by
    intro j hj
    rw [add_four_bits_map f, run_map f hf]
    exact run_eq_of_agree _ _ _ (fun q hq => hq10 q (hbound q hq)) j (hq10 j hj)
  obtain ⟨T1, T2, T3, T4⟩ := add4_table (s (f 0)) (s (f 1)) (s (f 2)) (s (f 3))
    (s (f 4)) (s (f 5)) (s (f 6)) (s (f 7)) (s (f 8))
  have hA : regVal s (fun i => f i) 4
      = regVal (fun j => [s (f 0), s (f 1), s (f 2), s (f 3), s (f 4), s (f 5), s (f 6),
          s (f 7), s (f 8), false].getD j false) (fun i => i) 4 :=
    regVal_congr _ _ _ _ 4 (fun i hi => hq10 i (by omega))
  have hB : regVal s (fun i => f (i + 4)) 4
      = regVal (fun j => [s (f 0), s (f 1), s (f 2), s (f 3), s (f 4), s (f 5), s (f 6),
          s (f 7), s (f 8), false].getD j false) (fun i => i + 4) 4 :=
    regVal_congr _ _ _ _ 4 (fun i hi => hq10 (i + 4) (by omega))
  refine ⟨?_, ?_, ?_, ?_⟩
  · calc regVal (run (add_four_bits [f 0, f 1, f 2, f 3] [f 4, f 5, f 6, f 7]
          (f 8) (f 9)) s) (fun i => f (i + 4)) 4
        = regVal (run (add_four_bits [0, 1, 2, 3] [4, 5, 6, 7] 8 9)
            (fun q => [s (f 0), s (f 1), s (f 2), s (f 3), s (f 4), s (f 5), s (f 6),
              s (f 7), s (f 8), false].getD q false)) (fun i => i + 4) 4 :=
          regVal_congr _ _ _ _ 4 (fun i hi => htrans (i + 4) (by omega))
      _ = _ := by rw [T1, ← hA, ← hB]
  · rw [htrans 9 (by omega), T2, ← hA, ← hB]
  · intro i hi
    rw [htrans i (by omega)]
    interval_cases i
    · exact T3.1
    · exact T3.2.1
    · exact T3.2.2.1
    · exact T3.2.2.2
  · rw [htrans 8 (by omega)]
    exact T4

/-- Witness for C4 at `f = id` with `a = 1`, `b = 0`, `carryIn = 0`:
the b-register ends holding `1`. -/
theorem add_four_bits_spec_witness :
    regVal (run (add_four_bits [0, 1, 2, 3] [4, 5, 6, 7] 8 9)
        (fun j => decide (j = 0))) (fun i => i + 4) 4 = 1 :=
  Trans.trans
    ((add_four_bits_spec (fun i : Nat => i) (fun a b h => h)
        (fun j => decide (j = 0)) (by decide)).1)
    (by decide)

/-! ## Initialization of the adder state (C5) -/

/-- Modelled from the spec (claim C5's reading of `initializeState`): pad each
pattern on the LEFT with `'0'` to length `k`, then take the last `k`
characters; flip qubit `i` for each `'1'` of the a-pattern, qubit `k+i` for
each `'1'` of the b-pattern, and qubit `2k` when the carry is 1. -/
def initializeState_spec (qubit_count : Nat)
    (a_pattern b_pattern : List Char) (initial_carry : Nat) : List Gate :=
  let aP := takeLast (List.replicate (qubit_count - a_pattern.length) '0'
    ++ a_pattern) qubit_count
  let bP := takeLast (List.replicate (qubit_count - b_pattern.length) '0'
    ++ b_pattern) qubit_count
  ((List.range qubit_count).filterMap fun i =>
    if aP.getD i ' ' = '1' then some (Gate.x i) else none)
  ++ ((List.range qubit_count).filterMap fun i =>
    if bP.getD i ' ' = '1' then some (Gate.x (qubit_count + i)) else none)
  ++ (if initial_carry = 1 then [Gate.x (2 * qubit_count)] else [])

/-- C5 counterexample: with `k = 2` and the one-character pattern `"1"`, the
code (which uses `ljust`, i.e. pads on the RIGHT) flips qubit 0, whereas the
claimed left-padding recipe flips qubit 1: the two gate lists differ. -/
theorem initialize_pad_counterexample :
    initialize_quantum_state 2 ['1'] [] 0 ≠ initializeState_spec 2 ['1'] [] 0 := by
  decide

/-- Behaviour of one X-flip loop: qubit `g j` is flipped exactly when `P j`
holds; every qubit outside the image of `g` on `[0,k)` is untouched. -/
theorem run_filterX (P : Nat → Prop) [DecidablePred P] (g : Nat → Nat) :
    ∀ (k : Nat) (s : Nat → Bool),
      (∀ q, (∀ i, i < k → g i ≠ q) →
        run ((List.range k).filterMap fun i =>
          if P i then some (Gate.x (g i)) else none) s q = s q)
      ∧ (Function.Injective g → ∀ j, j < k →
        run ((List.range k).filterMap fun i =>
          if P i then some (Gate.x (g i)) else none) s (g j)
          = (s (g j)).xor (decide (P j))) := by
  intro k
  induction k with
  | zero => intro s; exact ⟨fun q _ => rfl, fun _ j hj => absurd hj (by omega)⟩
  | succ k ih =>
      intro s
      have hsplit : ((List.range (k + 1)).filterMap fun i =>
            if P i then some (Gate.x (g i)) else none)
          = ((List.range k).filterMap fun i =>
              if P i then some (Gate.x (g i)) else none)
            ++ (if P k then [Gate.x (g k)] else []) := by
        rw [List.range_succ, List.filterMap_append]
        congr 1
        by_cases hp : P k <;> simp [hp]
      constructor
      · intro q hq
        rw [hsplit, run_append]
        have hinner := (ih s).1 q (fun i hi => hq i (by omega))
        by_cases hp : P k
        · rw [if_pos hp]
          simp only [run_cons, run_nil]
          rw [applyGate_frame _ _ _ (by
            intro t ht
            simp only [gateTargets, List.mem_singleton] at ht
            subst ht
            exact hq k (by omega))]
          exact hinner
        · rw [if_neg hp]
          exact hinner
      · intro hg j hj
        rw [hsplit, run_append]
        by_cases hjk : j = k
        · subst hjk
          have hkeep := (ih s).1 (g j) (fun i hi => hg.ne (by omega))
          by_cases hp : P j
          · rw [if_pos hp]
            simp only [run_cons, run_nil]
            simp [applyGate, upd, hkeep, hp]
          · rw [if_neg hp]
            simp only [run_nil]
            simp [hkeep, hp]
        · have hlt : j < k := by omega
          have hval := (ih s).2 hg j hlt
          by_cases hp : P k
          · rw [if_pos hp]
            have hne : g k ≠ g j := hg.ne (by omega)
            simp only [run_cons, run_nil]
            rw [applyGate_frame _ _ _ (by
              intro t ht
              simp only [gateTargets, List.mem_singleton] at ht
              subst ht
              exact hne)]
            exact hval
          · rw [if_neg hp]
            exact hval

/-- C5 (amended): `initialize_quantum_state` first normalises each pattern by
padding it on the RIGHT with `'0'` to length `k` (Python `ljust`) and then
taking the last `k` characters; afterwards qubit `i` (for `i < k`) is flipped
exactly when character `i` of the normalised a-pattern is `'1'`, qubit `k+i`
exactly when character `i` of the normalised b-pattern is `'1'`, and qubit
`2k` exactly when the initial carry equals 1; no other qubit is touched. -/
theorem initialize_quantum_state_spec (k : Nat) (A B : List Char) (c : Nat)
    (s : Nat → Bool) :
    (∀ i, i < k → run (initialize_quantum_state k A B c) s i
        = (s i).xor (decide ((takeLast (ljust A k '0') k).getD i ' ' = '1')))
    ∧ (∀ i, i < k → run (initialize_quantum_state k A B c) s (k + i)
        = (s (k + i)).xor (decide ((takeLast (ljust B k '0') k).getD i ' ' = '1')))
    ∧ run (initialize_quantum_state k A B c) s (2 * k)
        = (s (2 * k)).xor (decide (c = 1))
    ∧ ∀ q, 2 * k < q → run (initialize_quantum_state k A B c) s q = s q := by
  have hL3v : ∀ (s' : Nat → Bool),
      run (if c = 1 then [Gate.x (2 * k)] else []) s' (2 * k)
        = (s' (2 * k)).xor (decide (c = 1)) := by
    intro s'
    by_cases hc : c = 1 <;> simp [hc, run, applyGate, upd]
  have hL3f : ∀ (s' : Nat → Bool) (q : Nat), q ≠ 2 * k →
      run (if c = 1 then [Gate.x (2 * k)] else []) s' q = s' q := by
    intro s' q hq
    by_cases hc : c = 1 <;> simp [hc, run, applyGate, upd, hq]
  have hainj : Function.Injective (fun i : Nat => i) := fun a b h => h
  have hbinj : Function.Injective (fun i : Nat => k + i) := by
    intro a b h
    simp only at h
    omega
  refine ⟨?_, ?_, ?_, ?_⟩
  · intro i hi
    simp only [initialize_quantum_state]
    rw [run_append, run_append, hL3f _ i (by omega)]
    have h2 := (run_filterX
      (fun j => (takeLast (ljust B k '0') k).getD j ' ' = '1')
      (fun j => k + j) k (run ((List.range k).filterMap fun j =>
        if (takeLast (ljust A k '0') k).getD j ' ' = '1'
        then some (Gate.x j) else none) s)).1 i (fun j hj => by omega)
    rw [h2]
    exact (run_filterX
      (fun j => (takeLast (ljust A k '0') k).getD j ' ' = '1')
      (fun j => j) k s).2 hainj i hi
  · intro i hi
    simp only [initialize_quantum_state]
    rw [run_append, run_append, hL3f _ (k + i) (by omega)]
    have h1 := (run_filterX
      (fun j => (takeLast (ljust A k '0') k).getD j ' ' = '1')
      (fun j => j) k s).1 (k + i) (fun j hj => by omega)
    have h2 := (run_filterX
      (fun j => (takeLast (ljust B k '0') k).getD j ' ' = '1')
      (fun j => k + j) k (run ((List.range k).filterMap fun j =>
        if (takeLast (ljust A k '0') k).getD j ' ' = '1'
        then some (Gate.x j) else none) s)).2 hbinj i hi
    rw [h2, h1]
  · simp only [initialize_quantum_state]
    rw [run_append, run_append, hL3v]
    have h2 := (run_filterX
      (fun j => (takeLast (ljust B k '0') k).getD j ' ' = '1')
      (fun j => k + j) k (run ((List.range k).filterMap fun j =>
        if (takeLast (ljust A k '0') k).getD j ' ' = '1'
        then some (Gate.x j) else none) s)).1 (2 * k) (fun j hj => by omega)
    have h1 := (run_filterX
      (fun j => (takeLast (ljust A k '0') k).getD j ' ' = '1')
      (fun j => j) k s).1 (2 * k) (fun j hj => by omega)
    rw [h2, h1]
  · intro q hq
    simp only [initialize_quantum_state]
    rw [run_append, run_append, hL3f _ q (by omega)]
    have h2 := (run_filterX
      (fun j => (takeLast (ljust B k '0') k).getD j ' ' = '1')
      (fun j => k + j) k (run ((List.range k).filterMap fun j =>
        if (takeLast (ljust A k '0') k).getD j ' ' = '1'
        then some (Gate.x j) else none) s)).1 q (fun j hj => by omega)
    have h1 := (run_filterX
      (fun j => (takeLast (ljust A k '0') k).getD j ' ' = '1')
      (fun j => j) k s).1 q (fun j hj => by omega)
    rw [h2, h1]

/-- Witness for the amended C5 at `k = 2`, patterns `"1"` and `""`, carry 1:
qubit 0 is flipped (right-padding makes character 0 of the normalised
a-pattern a `'1'`). -/
theorem initialize_quantum_state_spec_witness :
    run (initialize_quantum_state 2 ['1'] [] 1) (fun _ => false) 0
      = ((fun _ : Nat => false) 0).xor
          (decide ((takeLast (ljust ['1'] 2 '0') 2).getD 0 ' ' = '1')) :=
  (initialize_quantum_state_spec 2 ['1'] [] 1 (fun _ => false)).1 0 (by omega)

/-! ## Circuit allocation (C6) -/

/-- C6 counterexample: for `k = 4` the code returns 10 total qubits, but the
claim's headline formula `2k + floor(k/4) + 1 - 1 = 2k + k/4` evaluates to 9:
the claimed equality chain is false at `k = 4`. -/
theorem create_quantum_circuit_counterexample :
    (create_quantum_circuit 4).2 = 10 ∧ (10 : Nat) ≠ 2 * 4 + 4 / 4 := by decide

/-- C6 (amended): for every positive multiple of 4, `create_quantum_circuit`
computes `totalQubits` exactly as `k*2 + 2 + k/4 - 1`, which equals
`2k + k/4 + 1` (not `2k + k/4`), sizes both the quantum and the classical
register to that count, and yields 10 for `k = 4` and 19 for `k = 8`. -/
theorem create_quantum_circuit_spec (k : Nat) (hk : 0 < k) (hk4 : k % 4 = 0) :
    create_quantum_circuit k
      = ((2 * k + k / 4 + 1, 2 * k + k / 4 + 1), 2 * k + k / 4 + 1)
    ∧ (create_quantum_circuit k).2 = k * 2 + 2 + k / 4 - 1
    ∧ (create_quantum_circuit 4).2 = 10 ∧ (create_quantum_circuit 8).2 = 19 := by
  refine ⟨?_, rfl, by decide, by decide⟩
  simp only [create_quantum_circuit]
  have h : k * 2 + 2 + k / 4 - 1 = 2 * k + k / 4 + 1 := by omega
  rw [h]

/-- Witness for the amended C6 at `k = 4`. -/
theorem create_quantum_circuit_spec_witness :
    create_quantum_circuit 4
      = ((2 * 4 + 4 / 4 + 1, 2 * 4 + 4 / 4 + 1), 2 * 4 + 4 / 4 + 1) :=
  (create_quantum_circuit_spec 4 (by omega) (by omega)).1

/-! ## Entry-point failure policies (C7) -/

/-- Observable outcome of one entry-point invocation: the exit status,
whether a message was written to the error stream, and whether an output
file was written. -/
structure ProcResult where
  exitCode : Nat
  errMessage : Bool
  fileWritten : Bool
deriving DecidableEq, Repr

/-- The adder's `__main__` block on an integer argument: an invalid bit
width is a silent successful no-op (`sys.exit(0)` before any output);
a valid one builds the circuit and writes the QASM file. -/
def adder_main (arg : Int) : ProcResult :=
  if validate_qubit_count arg then ⟨0, false, true⟩ else ⟨0, false, false⟩

/-- The multiplier's `main()` on an optional integer argument: a missing
argument prints usage to stderr and exits 1; a non-positive bit count prints
a message to stderr and exits 1; otherwise the circuit is built and the QASM
file written. -/
def multiplier_main (arg : Option Int) : ProcResult :=
  match arg with
  | none => ⟨1, true, false⟩
  | some n => if validate_bit_count n then ⟨0, false, true⟩ else ⟨1, true, false⟩

/-- C7: the two entry points have distinct failure policies.  For every
integer argument that is not a positive multiple of 4 the adder exits with
status 0, writes no file and no message; for a missing argument or any
non-positive integer the multiplier writes a message to the error stream,
exits with status 1 and writes no file. -/
theorem failure_policy_spec :
    (∀ arg : Int, ¬(0 < arg ∧ arg % 4 = 0) →
      adder_main arg = ⟨0, false, false⟩)
    ∧ multiplier_main none = ⟨1, true, false⟩
    ∧ ∀ n : Int, n ≤ 0 → multiplier_main (some n) = ⟨1, true, false⟩ := by
  refine ⟨?_, rfl, ?_⟩
  · intro arg h
    have hv : validate_qubit_count arg = false := by
      simp only [validate_qubit_count, Bool.and_eq_false_iff, decide_eq_false_iff_not]
      by_cases h4 : arg % 4 = 0
      · right
        intro hpos
        exact h ⟨by exact_mod_cast hpos, h4⟩
      · left
        exact h4
    simp [adder_main, hv]
  · intro n hn
    have hv : validate_bit_count n = false := by
      simp only [validate_bit_count, decide_eq_false_iff_not]
      omega
    simp [multiplier_main, hv]

/-- Witness for C7 at the adder argument 3 and the multiplier argument -2. -/
theorem failure_policy_spec_witness :
    adder_main 3 = ⟨0, false, false⟩
    ∧ multiplier_main (some (-2)) = ⟨1, true, false⟩ :=
  ⟨failure_policy_spec.1 3 (by decide), failure_policy_spec.2.2 (-2) (by decide)⟩

/-! ## Fixed adder operands (C10) -/

/-- C10: for every valid bit width, the adder entry point emits, before the
adder stages and the final measurements, exactly the initialization gates for
the fixed operands: pattern A `"1110"`, pattern B `"0001"`, initial carry 1;
the operands are hard-coded and do not depend on the bit width. -/
theorem adder_program_fixed_operands (k : Nat) (hk : 0 < k) (hk4 : k % 4 = 0) :
    ∃ rest : List Gate,
      adder_program k
        = initialize_quantum_state k ['1', '1', '1', '0'] ['0', '0', '0', '1'] 1
          ++ rest := by
  refine ⟨((List.range ((k + 3) / 4)).flatMap fun t =>
      add_four_bits [4 * t, 4 * t + 1, 4 * t + 2, 4 * t + 3]
        [4 * t + k, 4 * t + k + 1, 4 * t + k + 2, 4 * t + k + 3]
        (k * 2 + 4 * t / 4) (k * 2 + 4 * t / 4 + 1))
    ++ measureAll (n_qubits k), ?_⟩
  simp only [adder_program, List.append_assoc]

/-- Witness for C10 at `k = 4`. -/
theorem adder_program_fixed_operands_witness :
    ∃ rest : List Gate,
      adder_program 4
        = initialize_quantum_state 4 ['1', '1', '1', '0'] ['0', '0', '0', '1'] 1
          ++ rest :=
  adder_program_fixed_operands 4 (by omega) (by omega)

/-! ## Operand selection for the multiplier (C9)

The Python standard library pieces used by `multiplier.main` are not part of
this repository, so they are modelled from the spec. -/

/-- Modelled from the spec: the state transition of the standard library's
seeded pseudo-random generator (`random.seed` / `random.randint`), which the
spec only requires to be deterministic and reproducible across runs; here a
fixed 64-bit linear congruential step stands in for the Mersenne Twister. -/
def rngNext (state : Nat) : Nat :=
  (state * 6364136223846793005 + 1442695040888963407) % 2 ^ 64

/-- Modelled from the spec: `random.randint(lo, hi)` draws an integer in
`[lo, hi]` inclusive and advances the generator state deterministically. -/
def randint (state lo hi : Nat) : Nat × Nat :=
  (lo + rngNext state % (hi + 1 - lo), rngNext state)

/-- Modelled from the spec: `math.floor(math.sqrt(2 ** n))`, taken as the
exact integer square root of `2^n`. -/
def maxOperand (n : Nat) : Nat :=
  Nat.sqrt (2 ^ n)

/-- `selectOperands`: seed the generator with the fixed seed, then draw the
two operands `p` and `q` with `randint(1, maxv)` (the second draw continues
from the state left by the first). -/
def selectOperands (seed n : Nat) : Nat × Nat :=
  let maxv := maxOperand n
  let pr := randint seed 1 maxv
  let qr := randint pr.2 1 maxv
  (pr.1, qr.1)

/-- Python `f"{v:0{n}b}"[-n:]`: the binary digits of `v` (most significant
first), zero-padded on the left to width `n`, then truncated to the last `n`
characters. -/
def binFormat (v n : Nat) : List Char :=
  takeLast (List.replicate (n - (Nat.toDigits 2 v).length) '0'
    ++ Nat.toDigits 2 v) n

theorem randint_range (state lo hi : Nat) (h : lo ≤ hi) :
    lo ≤ (randint state lo hi).1 ∧ (randint state lo hi).1 ≤ hi := by
  simp only [randint]
  have hpos : 0 < hi + 1 - lo := by omega
  have := Nat.mod_lt (rngNext state) hpos
  omega

theorem binFormat_length (v n : Nat) : (binFormat v n).length = n := by
  simp only [binFormat, takeLast, List.length_drop, List.length_append,
    List.length_replicate]
  omega

theorem maxOperand_pos (n : Nat) (hn : 1 ≤ n) : 1 ≤ maxOperand n := by
  simp only [maxOperand]
  have h2 : 1 * 1 ≤ 2 ^ n := Nat.one_le_two_pow
  calc 1 ≤ Nat.sqrt (1 * 1) := by simp
    _ ≤ Nat.sqrt (2 ^ n) := Nat.sqrt_le_sqrt h2

/-- C9: with the fixed seed 555, operand selection is deterministic (two runs
of the selection yield identical pairs), both selected values lie in
`[1, floor(sqrt(2^n))]`, and each operand is formatted as an `n`-character
binary string (zero-padded on the left, truncated to the last `n`
characters). -/
theorem selectOperands_spec (n : Nat) (hn : 1 ≤ n) :
    selectOperands 555 n = selectOperands 555 n
    ∧ (1 ≤ (selectOperands 555 n).1
       ∧ (selectOperands 555 n).1 ≤ Nat.sqrt (2 ^ n))
    ∧ (1 ≤ (selectOperands 555 n).2
       ∧ (selectOperands 555 n).2 ≤ Nat.sqrt (2 ^ n))
    ∧ (binFormat (selectOperands 555 n).1 n).length = n
    ∧ (binFormat (selectOperands 555 n).2 n).length = n := by
  have hmax := maxOperand_pos n hn
  refine ⟨rfl, ?_, ?_, binFormat_length (selectOperands 555 n).1 n,
    binFormat_length (selectOperands 555 n).2 n⟩
  · exact randint_range 555 1 (maxOperand n) hmax
  · exact randint_range (randint 555 1 (maxOperand n)).2 1 (maxOperand n) hmax

/-- Witness for C9 at `n = 4`. -/
theorem selectOperands_spec_witness :
    1 ≤ (selectOperands 555 4).1 ∧ (selectOperands 555 4).1 ≤ Nat.sqrt (2 ^ 4) :=
  (selectOperands_spec 4 (by omega)).2.1

/-! ## The multiplier loop in canonical form (C1) -/

theorem drop_range_map (a b : Nat) :
    (List.range (a + b)).drop a = (List.range b).map (fun j => a + j) := by
  rw [List.range_add]
  exact List.drop_left' (by simp)

/-- The `a`-register slice `qubits[1 : n*3 : 3]` of `range (n*3)`. -/
theorem aList_eq (n : Nat) :
    everyThird ((List.range (n * 3)).drop 1)
      = (List.range n).map (fun j => 3 * j + 1) := by
  apply List.ext_getElem
  · simp only [everyThird_length, List.length_drop, List.length_range,
      List.length_map]
    omega
  · intro i h1 h2
    have hlen : (everyThird ((List.range (n * 3)).drop 1)).length = n := by
      simp only [everyThird_length, List.length_drop, List.length_range]
      omega
    have hin : i < n := by omega
    rw [← List.getD_eq_getElem _ 0 h1, everyThird_getD, getD_drop,
      getD_range _ _ _ (by omega)]
    rw [List.getElem_map, List.getElem_range]
    omega

theorem ccxPass_list (n i : Nat) (hi : i < n) :
    (((List.range n).map (fun j => 3 * j + 1)).drop i).zip
        ((((List.range (5 * n)).drop (n * 3)).take (n * 4 - n * 3)).take (n - i))
      = (List.range (n - i)).map (fun j => (3 * (i + j) + 1, n * 3 + j)) := by
  have hy : ((List.range (5 * n)).drop (n * 3)).take (n * 4 - n * 3)
      = (List.range n).map (fun j => n * 3 + j) := by
    have h5 : 5 * n = n * 3 + 2 * n := by ring
    rw [h5, drop_range_map, ← List.map_take, List.take_range]
    have h2 : (n * 4 - n * 3) ⊓ (2 * n) = n := by omega
    rw [h2]
  rw [hy, ← List.map_take, List.take_range, ← List.map_drop]
  have hd : (List.range n).drop i = (List.range (n - i)).map (fun j => i + j) := by
    have h : n = i + (n - i) := by omega
    rw [h, drop_range_map]
    have h2 : i + (n - i) - i = n - i := by omega
    rw [h2]
  have hmin : (n - i) ⊓ n = n - i := by omega
  rw [hmin, hd, List.map_map, List.zip_map']
  rfl

/-- One conditional-copy pass of the multiplier: for bit `i` of x,
`ccx(x_i, y_j, a_(i+j))` over `j < n - i` (canonical layout on `range (5n)`:
`a`-qubits at `3k+1`, `y` at `3n..4n-1`, `x` at `4n..5n-1`). -/
def ccxPass (n i : Nat) : List Gate :=
  (List.range (n - i)).map fun j => Gate.ccx (n * 4 + i) (n * 3 + j) (3 * (i + j) + 1)

/-- The gate list of `multiplier` on the canonical qubit list `range (5n)`. -/
def multIdx (n : Nat) : List Gate :=
  (List.range n).flatMap fun i =>
    ccxPass n i ++ adderIdx n (fun j => j) ++ ccxPass n i

theorem flatMap_singleton_map {α β : Type} (l : List α) (h : α → β) :
    (l.flatMap fun x => [h x]) = l.map h := by
  induction l with
  | nil => rfl
  | cons u rest ih => simp [List.flatMap_cons, ih]

theorem mult_eq (n : Nat) (hn : 1 ≤ n) :
    multiplier (List.range (5 * n)) = multIdx n := by
  have hN : (List.range (5 * n)).length / 5 = n := by
    simp only [List.length_range]
    omega
  simp only [multiplier, hN]
  have htake3 : (List.range (5 * n)).take (n * 3) = List.range (n * 3) := by
    rw [List.take_range]
    congr 1
    omega
  have htake3' : (List.range (5 * n)).take (3 * n) = List.range (3 * n) := by
    rw [List.take_range]
    congr 1
    omega
  have hx : (List.range (5 * n)).drop (n * 4) = (List.range n).map (fun j => n * 4 + j) := by
    have h5 : 5 * n = n * 4 + n := by ring
    rw [h5, drop_range_map]
  have hadd : adder (List.range (3 * n)) = adderIdx n (fun j => j) := by
    rw [adder_eq _ n hn (by simp)]
    exact adderIdx_congr n _ _ hn (fun i hi => getD_range _ _ _ hi)
  rw [htake3, htake3', hx, hadd, aList_eq]
  simp only [List.length_map, List.length_range]
  unfold multIdx
  refine flatMap_congr _ _ _ (fun i hi => ?_)
  rw [List.mem_range] at hi
  rw [ccxPass_list n i hi, getD_map_range n _ i hi,
    List.flatMap_map, flatMap_singleton_map]
  rfl

theorem run_ccxPass_aux (n i : Nat) (hin : i < n) :
    ∀ (k : Nat), k ≤ n - i → ∀ (s : Nat → Bool),
      (∀ q, (∀ j, j < k → q ≠ 3 * (i + j) + 1) →
        run ((List.range k).map fun j =>
          Gate.ccx (n * 4 + i) (n * 3 + j) (3 * (i + j) + 1)) s q = s q)
      ∧ (∀ j, j < k →
        run ((List.range k).map fun j =>
          Gate.ccx (n * 4 + i) (n * 3 + j) (3 * (i + j) + 1)) s (3 * (i + j) + 1)
          = (s (3 * (i + j) + 1)).xor ((s (n * 4 + i)) && (s (n * 3 + j)))) := by
  intro k
  induction k with
  | zero => intro _ s; exact ⟨fun q _ => rfl, fun j hj => absurd hj (by omega)⟩
  | succ k ih =>
      intro hk s
      have hk' : k ≤ n - i := by omega
      have hsplit : ((List.range (k + 1)).map fun j =>
            Gate.ccx (n * 4 + i) (n * 3 + j) (3 * (i + j) + 1))
          = ((List.range k).map fun j =>
              Gate.ccx (n * 4 + i) (n * 3 + j) (3 * (i + j) + 1))
            ++ [Gate.ccx (n * 4 + i) (n * 3 + k) (3 * (i + k) + 1)] := by
        rw [List.range_succ, List.map_append]
        rfl
      constructor
      · intro q hq
        rw [hsplit, run_append]
        simp only [run_cons, run_nil]
        rw [applyGate_frame _ _ _ (by
          intro t ht
          simp only [gateTargets, List.mem_singleton] at ht
          subst ht
          exact Ne.symm (hq k (by omega)))]
        exact (ih hk' s).1 q (fun j hj => hq j (by omega))
      · intro j hj
        rw [hsplit, run_append]
        simp only [run_cons, run_nil]
        by_cases hjk : j = k
        · subst hjk
          have hkeep : ∀ p, (∀ j', j' < j → p ≠ 3 * (i + j') + 1) →
              run ((List.range j).map fun j' =>
                Gate.ccx (n * 4 + i) (n * 3 + j') (3 * (i + j') + 1)) s p = s p :=
            (ih hk' s).1
          have ht : run ((List.range j).map fun j' =>
              Gate.ccx (n * 4 + i) (n * 3 + j') (3 * (i + j') + 1)) s (3 * (i + j) + 1)
              = s (3 * (i + j) + 1) :=
            hkeep _ (fun j' hj' => by omega)
          have hc1 : run ((List.range j).map fun j' =>
              Gate.ccx (n * 4 + i) (n * 3 + j') (3 * (i + j') + 1)) s (n * 4 + i)
              = s (n * 4 + i) :=
            hkeep _ (fun j' hj' => by omega)
          have hc2 : run ((List.range j).map fun j' =>
              Gate.ccx (n * 4 + i) (n * 3 + j') (3 * (i + j') + 1)) s (n * 3 + j)
              = s (n * 3 + j) :=
            hkeep _ (fun j' hj' => by omega)
          simp [applyGate, upd, ht, hc1, hc2]
        · have hlt : j < k := by omega
          rw [applyGate_frame _ _ _ (by
            intro t ht
            simp only [gateTargets, List.mem_singleton] at ht
            subst ht
            intro hcontra
            have : k = j := by omega
            exact hjk this.symm)]
          exact (ih hk' s).2 j hlt

theorem run_ccxPass_frame (n i : Nat) (hin : i < n) (s : Nat → Bool) (q : Nat)
    (hq : ∀ j, j < n - i → q ≠ 3 * (i + j) + 1) :
    run (ccxPass n i) s q = s q :=
  (run_ccxPass_aux n i hin (n - i) (by omega) s).1 q hq

theorem run_ccxPass_target (n i : Nat) (hin : i < n) (s : Nat → Bool) (j : Nat)
    (hj : j < n - i) :
    run (ccxPass n i) s (3 * (i + j) + 1)
      = (s (3 * (i + j) + 1)).xor ((s (n * 4 + i)) && (s (n * 3 + j))) :=
  (run_ccxPass_aux n i hin (n - i) (by omega) s).2 j hj

theorem pow_mul_mod_eq (t n Y : Nat) (ht : t ≤ n) :
    (2 ^ t * (Y % 2 ^ (n - t))) % 2 ^ n = (2 ^ t * Y) % 2 ^ n := by
  conv_rhs => rw [← Nat.div_add_mod Y (2 ^ (n - t))]
  rw [Nat.mul_add, ← Nat.mul_assoc]
  have h : 2 ^ t * 2 ^ (n - t) = 2 ^ n := by
    rw [← pow_add]
    congr 1
    omega
  rw [h, Nat.mul_add_mod]

theorem mod_pow_succ_testBit (X t : Nat) :
    X % 2 ^ (t + 1) = X % 2 ^ t + 2 ^ t * (X.testBit t).toNat := by
  rw [Nat.mod_pow_succ]
  congr 2
  rw [Nat.testBit_to_div_mod]
  rcases Nat.mod_two_eq_zero_or_one (X / 2 ^ t) with h | h <;> simp [h]

theorem regVal_and_left (xb : Bool) (s : Nat → Bool) (q : Nat → Nat) (m : Nat) :
    regVal (fun p => xb && s p) q m = xb.toNat * regVal s q m := by
  cases xb
  · rw [regVal_zero_of_false _ q m (fun i _ => by simp)]
    simp
  · rw [regVal_congr (fun p => true && s p) s q q m (fun i _ => by simp)]
    simp

theorem regVal_take_mod (s : Nat → Bool) (q : Nat → Nat) (m1 m2 : Nat)
    (h : m1 ≤ m2) : regVal s q m1 = regVal s q m2 % 2 ^ m1 := by
  have hs := regVal_split s m1 q (m2 - m1)
  rw [show m1 + (m2 - m1) = m2 from by omega] at hs
  rw [hs, Nat.add_mul_mod_self_left, Nat.mod_eq_of_lt (regVal_lt s q m1)]

/-- The partial multiplier loop: the first `t` of the `n` shift-and-add
iterations. -/
def multPre (n t : Nat) : List Gate :=
  (List.range t).flatMap fun i => ccxPass n i ++ adderIdx n (fun j => j) ++ ccxPass n i

theorem multIdx_eq_pre (n : Nat) : multIdx n = multPre n n := rfl

theorem multPre_succ (n t : Nat) :
    multPre n (t + 1)
      = multPre n t ++ (ccxPass n t ++ adderIdx n (fun j => j) ++ ccxPass n t) := by
  unfold multPre
  rw [List.range_succ, List.flatMap_append]
  simp

/-- Loop invariant of the shift-and-add multiplier on the canonical layout:
after `t` of the `n` iterations, all carries and accumulator qubits are back
to 0, qubits from `3n` up (the x- and y-registers) still hold their initial
values, and the b-register holds `((X mod 2^t) * Y) mod 2^n`. -/
theorem multInv (n : Nat) (hn : 1 ≤ n) (s : Nat → Bool)
    (h0 : ∀ j, j < 3 * n → s j = false) :
    ∀ t, t ≤ n →
      (∀ j, j < n → run (multPre n t) s (3 * j) = false)
      ∧ (∀ j, j < n → run (multPre n t) s (3 * j + 1) = false)
      ∧ (∀ j, 3 * n ≤ j → run (multPre n t) s j = s j)
      ∧ regVal (run (multPre n t) s) (fun j => 3 * j + 2) n
          = (regVal s (fun i => n * 4 + i) n % 2 ^ t
             * regVal s (fun i => n * 3 + i) n) % 2 ^ n := by
  obtain ⟨k, rfl⟩ : ∃ k, n = k + 1 := ⟨n - 1, by omega⟩
  intro t
  induction t with
  | zero =>
      intro _
      refine ⟨fun j hj => h0 _ (by omega), fun j hj => h0 _ (by omega),
        fun j _ => rfl, ?_⟩
      have hz : regVal (run (multPre (k + 1) 0) s) (fun j => 3 * j + 2) (k + 1) = 0 :=
        regVal_zero_of_false _ _ (k + 1) (fun i hi => h0 (3 * i + 2) (by omega))
      rw [hz, Nat.pow_zero, Nat.mod_one, Nat.zero_mul, Nat.zero_mod]
  | succ t ih =>
      intro ht1
      have htn : t < k + 1 := by omega
      obtain ⟨IC, IA, IF, IB⟩ := ih (by omega)
      have hsplitrun : run (multPre (k + 1) (t + 1)) s
          = run (ccxPass (k + 1) t)
              (run (adderIdx (k + 1) (fun j => j))
                (run (ccxPass (k + 1) t) (run (multPre (k + 1) t) s))) := by
        rw [multPre_succ]
        simp only [run_append]
      set u0 : Nat → Bool := run (multPre (k + 1) t) s with hu0
      set u1 : Nat → Bool := run (ccxPass (k + 1) t) u0 with hu1
      set u2 : Nat → Bool := run (adderIdx (k + 1) (fun j => j)) u1 with hu2
      -- facts after the first ccx pass
      have hu1a_low : ∀ j, j < t → u1 (3 * j + 1) = false := by
        intro j hj
        rw [hu1, run_ccxPass_frame (k + 1) t htn u0 _ (fun j' hj' => by omega)]
        exact IA j (by omega)
      have hu1a_hi : ∀ j, t ≤ j → j < k + 1 →
          u1 (3 * j + 1) = ((s ((k + 1) * 4 + t)) && (s ((k + 1) * 3 + (j - t)))) := by
        intro j hjt hjn
        have he : (3 : Nat) * j + 1 = 3 * (t + (j - t)) + 1 := by omega
        rw [hu1, he, run_ccxPass_target (k + 1) t htn u0 (j - t) (by omega)]
        have he2 : (3 : Nat) * (t + (j - t)) + 1 = 3 * j + 1 := by omega
        rw [he2, IA j hjn, IF ((k + 1) * 4 + t) (by omega),
          IF ((k + 1) * 3 + (j - t)) (by omega)]
        rw [Bool.false_xor]
      have hu1c : ∀ j, j < k + 1 → u1 (3 * j) = false := by
        intro j hj
        rw [hu1, run_ccxPass_frame (k + 1) t htn u0 _ (fun j' hj' => by omega)]
        exact IC j hj
      have hu1b : ∀ j, j < k + 1 → u1 (3 * j + 2) = u0 (3 * j + 2) := by
        intro j hj
        rw [hu1, run_ccxPass_frame (k + 1) t htn u0 _ (fun j' hj' => by omega)]
      have hu1f : ∀ j, 3 * (k + 1) ≤ j → u1 j = s j := by
        intro j hj
        rw [hu1, run_ccxPass_frame (k + 1) t htn u0 _ (fun j' hj' => by omega)]
        exact IF j hj
      -- the ripple-carry adder adds the partial product into b
      obtain ⟨A1, A2, A3⟩ := adderIdx_correct k (fun j => j) (fun a b h => h) u1
        (fun i h1 h2 => hu1c i (by omega))
      have hu2f : ∀ j, 3 * (k + 1) ≤ j → u2 j = u1 j := by
        intro j hj
        rw [hu2]
        exact adderIdx_frame (k + 1) (fun j => j) (by omega) u1 j
          (fun i hi => by show i ≠ j; omega)
      -- facts after the final (uncompute) ccx pass
      refine ⟨?_, ?_, ?_, ?_⟩
      · intro j hj
        rw [hsplitrun,
          run_ccxPass_frame (k + 1) t htn u2 _ (fun j' hj' => by omega),
          hu2, A3 j hj]
        exact hu1c j hj
      · intro j hj
        rw [hsplitrun]
        by_cases hjt : j < t
        · rw [run_ccxPass_frame (k + 1) t htn u2 _ (fun j' hj' => by omega)]
          rw [hu2, A2 j hj]
          exact hu1a_low j hjt
        · have he : (3 : Nat) * j + 1 = 3 * (t + (j - t)) + 1 := by omega
          rw [he, run_ccxPass_target (k + 1) t htn u2 (j - t) (by omega)]
          have he2 : (3 : Nat) * (t + (j - t)) + 1 = 3 * j + 1 := by omega
          rw [he2]
          rw [show u2 (3 * j + 1) = u1 (3 * j + 1) from hu2 ▸ A2 j hj,
            hu2f ((k + 1) * 4 + t) (by omega), hu2f ((k + 1) * 3 + (j - t)) (by omega),
            hu1f ((k + 1) * 4 + t) (by omega), hu1f ((k + 1) * 3 + (j - t)) (by omega),
            hu1a_hi j (by omega) hj]
          exact Bool.xor_self _
      · intro j hj
        rw [hsplitrun,
          run_ccxPass_frame (k + 1) t htn u2 _ (fun j' hj' => by omega),
          hu2f j hj, hu1f j hj]
      · -- the numeric value of the b register
        have hbits : ∀ i, i < k + 1 →
            run (multPre (k + 1) (t + 1)) s (3 * i + 2)
              = (regVal u1 (fun i => 3 * i + 1) (k + 1)
                 + regVal u1 (fun i => 3 * i + 2) (k + 1)
                 + (u1 0).toNat).testBit i := by
          intro i hi
          rw [hsplitrun,
            run_ccxPass_frame (k + 1) t htn u2 _ (fun j' hj' => by omega)]
          exact A1 i hi
        rw [regVal_of_testBit _ _ (k + 1) _ hbits]
        -- compute the three summands
        have hAsplit := regVal_split u1 t (fun i => 3 * i + 1) (k + 1 - t)
        rw [show t + (k + 1 - t) = k + 1 from by omega] at hAsplit
        have hAlow : regVal u1 (fun i => 3 * i + 1) t = 0 :=
          regVal_zero_of_false _ _ t (fun i hi => hu1a_low i hi)
        have hAhigh : regVal u1 (fun i => (fun i => 3 * i + 1) (i + t)) (k + 1 - t)
            = (s ((k + 1) * 4 + t)).toNat
              * (regVal s (fun i => (k + 1) * 3 + i) (k + 1) % 2 ^ (k + 1 - t)) := by
          have hcongr : regVal u1 (fun i => (fun i => 3 * i + 1) (i + t)) (k + 1 - t)
              = regVal (fun p => (s ((k + 1) * 4 + t)) && s p)
                  (fun i => (k + 1) * 3 + i) (k + 1 - t) := by
            refine regVal_congr _ _ _ _ _ (fun i hi => ?_)
            show u1 (3 * (i + t) + 1) = ((s ((k + 1) * 4 + t)) && s ((k + 1) * 3 + i))
            have h := hu1a_hi (i + t) (by omega) (by omega)
            rw [show i + t - t = i from by omega] at h
            exact h
          rw [hcongr, regVal_and_left,
            ← regVal_take_mod s (fun i => (k + 1) * 3 + i) (k + 1 - t) (k + 1) (by omega)]
        have hB : regVal u1 (fun i => 3 * i + 2) (k + 1)
            = (regVal s (fun i => (k + 1) * 4 + i) (k + 1) % 2 ^ t
               * regVal s (fun i => (k + 1) * 3 + i) (k + 1)) % 2 ^ (k + 1) := by
          rw [regVal_congr u1 u0 _ _ (k + 1) (fun i hi => hu1b i hi)]
          exact IB
        have hu1zero : u1 0 = false := hu1c 0 (by omega)
        rw [hAsplit, hAlow, hAhigh, hB, hu1zero]
        -- pure modular arithmetic from here on
        have hxbit : s ((k + 1) * 4 + t)
            = (regVal s (fun i => (k + 1) * 4 + i) (k + 1)).testBit t := by
          rw [regVal_testBit s (fun i => (k + 1) * 4 + i) (k + 1) t htn]
        set X : Nat := regVal s (fun i => (k + 1) * 4 + i) (k + 1) with hX
        set Y : Nat := regVal s (fun i => (k + 1) * 3 + i) (k + 1) with hY
        set xb : Nat := (s ((k + 1) * 4 + t)).toNat with hxb
        simp only [Bool.toNat_false, Nat.add_zero, Nat.zero_add]
        -- goal: (2^t * (xb * (Y % 2^(k+1-t))) + (X % 2^t * Y) % 2^(k+1)) % 2^(k+1)
        --     = (X % 2^(t+1) * Y) % 2^(k+1)
        rw [Nat.add_mod_mod]
        have e1 : 2 ^ t * (xb * (Y % 2 ^ (k + 1 - t)))
            = xb * (2 ^ t * (Y % 2 ^ (k + 1 - t))) := by ring
        rw [e1]
        have hmodeq : (xb * (2 ^ t * (Y % 2 ^ (k + 1 - t))) + X % 2 ^ t * Y)
            % 2 ^ (k + 1)
            = (xb * (2 ^ t * Y) + X % 2 ^ t * Y) % 2 ^ (k + 1) :=
          Nat.ModEq.add_right _ (Nat.ModEq.mul_left xb
            (pow_mul_mod_eq t (k + 1) Y (by omega)))
        rw [hmodeq]
        have e2 : xb * (2 ^ t * Y) + X % 2 ^ t * Y = (X % 2 ^ t + 2 ^ t * xb) * Y := by
          ring
        rw [e2]
        have e3 : X % 2 ^ t + 2 ^ t * xb = X % 2 ^ (t + 1) := by
          rw [mod_pow_succ_testBit X t, hxb, hxbit]
        rw [e3]

/-- C1: for every `n ≥ 1` and every classical basis state in which the first
`3n` qubits (carries, accumulator a, result b) are 0 and the y-register
(qubits `3n..4n-1`) and x-register (qubits `4n..5n-1`) hold arbitrary values
`Y` and `X` (least significant bit at the lowest index), running `multiplier`
leaves the b-qubits (every third qubit of the first `3n`, offset 2) holding
`X * Y mod 2^n`, and leaves the x- and y-registers unchanged. -/
theorem multiplier_spec (n : Nat) (hn : 1 ≤ n) (s : Nat → Bool)
    (h0 : ∀ j, j < 3 * n → s j = false) :
    regVal (run (multiplier (List.range (5 * n))) s) (fun j => 3 * j + 2) n
      = (regVal s (fun i => n * 4 + i) n * regVal s (fun i => n * 3 + i) n) % 2 ^ n
    ∧ (∀ i, i < n →
        run (multiplier (List.range (5 * n))) s (n * 3 + i) = s (n * 3 + i))
    ∧ (∀ i, i < n →
        run (multiplier (List.range (5 * n))) s (n * 4 + i) = s (n * 4 + i)) := by
  rw [mult_eq n hn, multIdx_eq_pre]
  obtain ⟨IC, IA, IF, IB⟩ := multInv n hn s h0 n (le_refl n)
  refine ⟨?_, ?_, ?_⟩
  · rw [IB, Nat.mod_eq_of_lt (regVal_lt s (fun i => n * 4 + i) n)]
  · intro i hi
    exact IF (n * 3 + i) (by omega)
  · intro i hi
    exact IF (n * 4 + i) (by omega)

/-- Witness for C1 at `n = 1` with `X = Y = 1`: the result register holds
`1 * 1 mod 2 = 1`. -/
theorem multiplier_spec_witness :
    regVal (run (multiplier (List.range (5 * 1)))
        (fun j => decide (j = 3) || decide (j = 4))) (fun j => 3 * j + 2) 1 = 1 :=
  Trans.trans
    ((multiplier_spec 1 (by omega) (fun j => decide (j = 3) || decide (j = 4))
      (by intro j hj; interval_cases j <;> rfl)).1)
    (by decide)

/-! ## Gate-index bounds (C8) -/

/-- The full gate list built by the multiplier's `main()` for bit count `n`:
initialize the x- and y-registers from the two formatted operands (via
`init_bits`, which reverses the qubit list), run the shift-and-add
multiplier over all `5n` qubits, then measure the b-qubits
(`qr[2 : n*3 : 3]`) into the n-bit classical register. -/
def multiplier_program (n : Nat) : List Gate :=
  let pq := selectOperands 555 n
  let y_bin := binFormat pq.1 n
  let x_bin := binFormat pq.2 n
  let qr := List.range (5 * n)
  let y := (qr.drop (n * 3)).take (n * 4 - n * 3)
  let x := qr.drop (n * 4)
  let b := everyThird ((qr.take (n * 3)).drop 2)
  init_bits x_bin x ++ init_bits y_bin y ++ multiplier qr
  ++ (b.zip (List.range n)).map (fun p => Gate.measure p.1 p.2)

theorem mem_filterMap_ite {α : Type} {P : Nat → Prop} [DecidablePred P]
    {F : Nat → α} {k : Nat} {gg : α}
    (h : gg ∈ (List.range k).filterMap fun i => if P i then some (F i) else none) :
    ∃ i, i < k ∧ gg = F i := by
  rcases List.mem_filterMap.mp h with ⟨i, hi, hite⟩
  rw [List.mem_range] at hi
  by_cases hp : P i
  · rw [if_pos hp] at hite
    exact ⟨i, hi, (Option.some_inj.mp hite).symm⟩
  · rw [if_neg hp] at hite
    cases hite

theorem initialize_qubits (k : Nat) (A B : List Char) (c : Nat) :
    ∀ g ∈ initialize_quantum_state k A B c, ∀ q ∈ gateQubits g, q ≤ 2 * k := by
  intro g hg q hq
  simp only [initialize_quantum_state, List.mem_append] at hg
  rcases hg with (h1 | h2) | h3
  · obtain ⟨i, hi, rfl⟩ := mem_filterMap_ite h1
    simp only [gateQubits, List.mem_singleton] at hq
    omega
  · obtain ⟨i, hi, rfl⟩ := mem_filterMap_ite h2
    simp only [gateQubits, List.mem_singleton] at hq
    omega
  · by_cases hc : c = 1
    · rw [if_pos hc] at h3
      simp only [List.mem_singleton] at h3
      subst h3
      simp only [gateQubits, List.mem_singleton] at hq
      omega
    · rw [if_neg hc] at h3
      cases h3

theorem add_four_bits_eq_list (a0 a1 a2 a3 b0 b1 b2 b3 cin cout : Nat) :
    add_four_bits [a0, a1, a2, a3] [b0, b1, b2, b3] cin cout = [
      .cx a0 b0, .cx a0 cin, .ccx cin b0 a0,
      .cx a1 b1, .cx a1 a0, .ccx a0 b1 a1,
      .cx a2 b2, .cx a2 a1, .ccx a1 b2 a2,
      .cx a3 b3, .cx a3 a2, .ccx a2 b3 a3,
      .cx a3 cout,
      .ccx a2 b3 a3, .cx a3 a2, .cx a2 b3,
      .ccx a1 b2 a2, .cx a2 a1, .cx a1 b2,
      .ccx a0 b1 a1, .cx a1 a0, .cx a0 b1,
      .ccx cin b0 a0, .cx a0 cin, .cx cin b0] := rfl

theorem add_four_bits_qubits (a0 a1 a2 a3 b0 b1 b2 b3 cin cout K : Nat)
    (h : a0 < K ∧ a1 < K ∧ a2 < K ∧ a3 < K ∧ b0 < K ∧ b1 < K ∧ b2 < K ∧ b3 < K
      ∧ cin < K ∧ cout < K) :
    ∀ g ∈ add_four_bits [a0, a1, a2, a3] [b0, b1, b2, b3] cin cout,
      ∀ q ∈ gateQubits g, q < K := by
  intro g hg q hq
  rw [add_four_bits_eq_list] at hg
  simp only [List.mem_cons, List.not_mem_nil, or_false] at hg
  rcases hg with rfl | rfl | rfl | rfl | rfl | rfl | rfl | rfl | rfl | rfl | rfl |
    rfl | rfl | rfl | rfl | rfl | rfl | rfl | rfl | rfl | rfl | rfl | rfl | rfl | rfl <;>
    simp only [gateQubits, List.mem_cons, List.not_mem_nil, or_false] at hq <;>
    first
      | ((rcases hq with rfl | rfl | rfl) <;> omega)
      | ((rcases hq with rfl | rfl) <;> omega)
      | (subst hq; omega)

theorem init_bits_qubits (bs : List Char) (qs : List Nat) :
    ∀ g ∈ init_bits bs qs, ∀ q ∈ gateQubits g, q ∈ qs := by
  intro g hg q hq
  simp only [init_bits, List.mem_filterMap] at hg
  obtain ⟨p, hp, hite⟩ := hg
  by_cases h1 : p.1 = '1'
  · rw [if_pos h1] at hite
    obtain rfl := (Option.some_inj.mp hite).symm
    simp only [gateQubits, List.mem_singleton] at hq
    subst hq
    exact List.mem_reverse.mp (List.of_mem_zip hp).2
  · rw [if_neg h1] at hite
    cases hite

theorem ccxPass_qubits (n i : Nat) (hi : i < n) :
    ∀ g ∈ ccxPass n i, ∀ q ∈ gateQubits g, q < 5 * n := by
  intro g hg q hq
  simp only [ccxPass, List.mem_map, List.mem_range] at hg
  obtain ⟨j, hj, rfl⟩ := hg
  simp only [gateQubits, List.mem_cons, List.not_mem_nil, or_false] at hq
  rcases hq with rfl | rfl | rfl <;> omega

theorem multIdx_qubits (n : Nat) (hn : 1 ≤ n) :
    ∀ g ∈ multIdx n, ∀ q ∈ gateQubits g, q < 5 * n := by
  intro g hg q hq
  simp only [multIdx, List.mem_flatMap, List.mem_range, List.mem_append] at hg
  obtain ⟨i, hi, hcase⟩ := hg
  rcases hcase with (hpass | hadd) | hpass2
  · exact ccxPass_qubits n i hi g hpass q hq
  · obtain ⟨i2, hi2, hq2⟩ := adderIdx_qubits n (fun j => j) hn g hadd q hq
    have hq2' : q = i2 := hq2
    omega
  · exact ccxPass_qubits n i hi g hpass2 q hq

/-- C8: every gate appended by either builder (pattern flips, the controlled
and doubly-controlled flips of the arithmetic stages, and the final
measurements — including the carry-out of the last adder block) references
only qubit indices strictly below the circuit's declared total qubit count
(`n_qubits k` for the adder, `5n` for the multiplier). -/
theorem gate_indices_bounded :
    (∀ k : Nat, 0 < k → k % 4 = 0 →
      ∀ g ∈ adder_program k, ∀ q ∈ gateQubits g, q < n_qubits k)
    ∧ (∀ n : Nat, 0 < n →
      ∀ g ∈ multiplier_program n, ∀ q ∈ gateQubits g, q < 5 * n) := by
  constructor
  · intro k hk hk4 g hg q hq
    simp only [adder_program, List.mem_append] at hg
    rcases hg with (hinit | hblocks) | hmeas
    · have := initialize_qubits k _ _ _ g hinit q hq
      unfold n_qubits
      omega
    · simp only [List.mem_flatMap, List.mem_range] at hblocks
      obtain ⟨t, ht, hgt⟩ := hblocks
      refine add_four_bits_qubits _ _ _ _ _ _ _ _ _ _ (n_qubits k)
        ?_ g hgt q hq
      unfold n_qubits
      omega
    · simp only [measureAll, List.mem_map, List.mem_range] at hmeas
      obtain ⟨p, hp, rfl⟩ := hmeas
      simp only [gateQubits, List.mem_singleton] at hq
      omega
  · intro n hn g hg q hq
    simp only [multiplier_program, List.mem_append] at hg
    have hx : ∀ p, p ∈ (List.range (5 * n)).drop (n * 4) → p < 5 * n := by
      intro p hp
      have := List.mem_of_mem_drop hp
      rw [List.mem_range] at this
      exact this
    have hy : ∀ p, p ∈ ((List.range (5 * n)).drop (n * 3)).take (n * 4 - n * 3)
        → p < 5 * n := by
      intro p hp
      have := List.mem_of_mem_drop (List.mem_of_mem_take hp)
      rw [List.mem_range] at this
      exact this
    rcases hg with ((hxi | hyi) | hmult) | hmeas
    · exact hx q (init_bits_qubits _ _ g hxi q hq)
    · exact hy q (init_bits_qubits _ _ g hyi q hq)
    · rw [mult_eq n (by omega)] at hmult
      exact multIdx_qubits n (by omega) g hmult q hq
    · simp only [List.mem_map] at hmeas
      obtain ⟨p, hp, rfl⟩ := hmeas
      simp only [gateQubits, List.mem_singleton] at hq
      subst hq
      have hb := everyThird_sublist _ _ (List.of_mem_zip hp).1
      have := List.mem_of_mem_take (List.mem_of_mem_drop hb)
      rw [List.mem_range] at this
      omega

/-- Witness for C8: the very first gate of the 4-bit adder program (the X on
qubit 0 from pattern A) is in bounds. -/
theorem gate_indices_bounded_witness : (0 : Nat) < n_qubits 4 :=
  gate_indices_bounded.1 4 (by decide) (by decide) (Gate.x 0) (by decide) 0 (by decide)
